import Mathlib

/-!
# Verification of the RedBlackTree repository

A shallow embedding of the red-black multiset tree from `inc/RedBlackTree.h`
(template class `RedBlackTree`, instantiated at `ElemType = int` as the test
suite does).  Pointer-linked nodes are represented by an inductive tree plus a
zipper (`Path`) for the upward walks the C++ code performs through `parent`
pointers; the two fix-up routines, whose recursion is not structural, take an
explicit fuel argument and return `Except Fault` where `Fault` marks the
situations in which the C++ code would dereference a null pointer, read an
uninitialized variable, or (for the model only) run out of fuel.
-/

namespace RBT

/-- One tree node: color (`red = true`), left child, value, count, right child.
Mirrors `struct Node` minus the `parent` pointer, which in this embedding is
derived from the child relation (see `encodeAt` below for the heap view that
materializes the parent pointers). -/
inductive RBNode where
  | nil : RBNode
  | node (red : Bool) (l : RBNode) (value : Int) (cnt : Nat) (r : RBNode) : RBNode
deriving Repr, DecidableEq

namespace RBNode

/-- `t` is a non-null red node (`t != NULL && t->red`). -/
def isRed : RBNode → Bool
  | .node true _ _ _ _ => true
  | _ => false

/-- `t == NULL`. -/
def isNil : RBNode → Bool
  | .nil => true
  | _ => false

/-- `t->count`, with a default for the null case (never used on null). -/
def cntOf : RBNode → Nat
  | .nil => 0
  | .node _ _ _ k _ => k

/-- `t->lChild`, with a default for the null case (used only behind non-null
guards). -/
def leftOf : RBNode → RBNode
  | .nil => .nil
  | .node _ l _ _ _ => l

/-- `t->rChild`, with a default for the null case. -/
def rightOf : RBNode → RBNode
  | .nil => .nil
  | .node _ _ _ _ r => r

/-- `t->value`, with a default for the null case. -/
def valueOf : RBNode → Int
  | .nil => 0
  | .node _ _ v _ _ => v

end RBNode

/-- `root->red = false` (used for the root recolor and the splice recolor). -/
def setRootBlack : RBNode → RBNode
  | .nil => .nil
  | .node _ l v k r => .node false l v k r

/-- `verifyRedChild(Node*)` from the source: red nodes may not have red
children, checked recursively, with the early return on childless nodes. -/
def verifyRedChild : RBNode → Bool
  | .nil => true
  | .node c l _ _ r =>
    if l.isNil && r.isNil then true
    else if (l.isRed || r.isRed) && c then false
    else verifyRedChild l && verifyRedChild r

/-- `blackHeight(Node*, bool)` from the source: the number of black nodes on
the extreme left (`left = true`) or right spine strictly below the given node,
counting an absent child as 1. -/
def blackHeight : RBNode → Bool → Nat
  | .nil, _ => 1
  | .node _ l _ _ _, true =>
    match l with
    | .nil => 1
    | .node lc ll lv lk lr =>
      if lc then blackHeight (.node lc ll lv lk lr) true
      else blackHeight (.node lc ll lv lk lr) true + 1
  | .node _ _ _ _ r, false =>
    match r with
    | .nil => 1
    | .node rc rl rv rk rr =>
      if rc then blackHeight (.node rc rl rv rk rr) false
      else blackHeight (.node rc rl rv rk rr) false + 1

/-- `verifyBlackHeight(Node*)` from the source: every node has equal left and
right spine black heights, recursively. -/
def verifyBlackHeight : RBNode → Bool
  | .nil => true
  | .node c l v k r =>
    if blackHeight (.node c l v k r) true ≠ blackHeight (.node c l v k r) false then false
    else verifyBlackHeight l && verifyBlackHeight r

/-- `blackRoot()` from the source. -/
def blackRoot : RBNode → Bool
  | .nil => true
  | .node c _ _ _ _ => !c

/-- `countSum(Node*)` from the source: total of all `count` fields. -/
def countSum : RBNode → Nat
  | .nil => 0
  | .node _ l _ k r => k + countSum l + countSum r

/-- `numNullChildren(Node*)` from the source. -/
def numNullChildren : RBNode → Nat
  | .nil => 0
  | .node _ l _ _ r => (if l.isNil then 1 else 0) + (if r.isNil then 1 else 0)

/-- `findNode(Node*, value)` from the source: binary search returning the
subtree rooted at the found node (the C++ code returns the node pointer). -/
def findNode : RBNode → Int → Option RBNode
  | .nil, _ => none
  | .node c l v k r, x =>
    if v = x then some (.node c l v k r)
    else if x < v then findNode l x
    else findNode r x

/-- `count(value)` at the node level: 0 on a miss, else the found `count`. -/
def countVal (t : RBNode) (x : Int) : Nat :=
  match findNode t x with
  | none => 0
  | some s => s.cntOf

/-! ## The heap view and `parentChildMatch`

The C++ nodes store a `parent` pointer.  `encodeAt` lays a tree out as
heap nodes addressed by their root path, each carrying the parent address the
source code maintains; `parentChildMatchAt` is the source's recursive check
that every stored child's parent pointer equals the node holding it. -/

/-- A heap node: stored parent address, color, left child, value, count, right
child.  Addresses are root paths (`true` = left edge). -/
inductive PNode where
  | nil : PNode
  | node (parent : Option (List Bool)) (red : Bool) (l : PNode) (value : Int)
      (cnt : Nat) (r : PNode) : PNode
deriving Repr, DecidableEq

/-- Lay out a tree in the heap: the node at address `addr` stores `par` as its
parent pointer, and its children live at `addr ++ [true]` / `addr ++ [false]`
with parent pointer `some addr`. -/
def encodeAt : RBNode → Option (List Bool) → List Bool → PNode
  | .nil, _, _ => .nil
  | .node c l v k r, par, addr =>
    .node par c (encodeAt l (some addr) (addr ++ [true])) v k
      (encodeAt r (some addr) (addr ++ [false]))

/-- `parentChildMatch(Node*)` from the source, on the heap view: a non-null
child whose stored parent is not the current node fails the check. -/
def parentChildMatchAt : PNode → List Bool → Bool
  | .nil, _ => true
  | .node _ _ l _ _ r, addr =>
    (match l with
     | .nil => true
     | .node lp _ _ _ _ _ => lp == some addr) &&
    (match r with
     | .nil => true
     | .node rp _ _ _ _ _ => rp == some addr) &&
    parentChildMatchAt l (addr ++ [true]) && parentChildMatchAt r (addr ++ [false])

/-! ## Tree object -/

/-- The `RedBlackTree` object: owned root and the `numElems` counter (an
`int` in the source). -/
structure Tree where
  root : RBNode
  numElems : Int
deriving Repr, DecidableEq

/-- The default constructor: `root(NULL), numElems(0)`. -/
def emptyTree : Tree := ⟨.nil, 0⟩

/-- `size()`. -/
def Tree.size (t : Tree) : Int := t.numElems

/-- `empty()`. -/
def Tree.isEmpty (t : Tree) : Bool := t.size == 0

/-- `clear()`: frees all nodes and resets. -/
def clear (_t : Tree) : Tree := ⟨.nil, 0⟩

/-- `count(value)` on the tree (the source returns `int`). -/
def Tree.count (t : Tree) (x : Int) : Int :=
  match findNode t.root x with
  | none => 0
  | some s => (s.cntOf : Int)

/-- `contains(value)`: `count(value) != 0`. -/
def Tree.containsVal (t : Tree) (x : Int) : Bool := t.count x != 0

/-- `blackRoot`, `verifyRedChild`, `verifyBlackHeight`, `verifyCount`,
`parentChildMatch` wrappers and `verifyProperties`. -/
def verifyCount (t : Tree) : Bool := (countSum t.root : Int) == t.numElems

/-- `parentChildMatch()` wrapper: check the heap layout of the current tree. -/
def parentChildMatch (t : Tree) : Bool :=
  parentChildMatchAt (encodeAt t.root none []) []

/-- `verifyProperties()` from the source, same conjunct order. -/
def verifyProperties (t : Tree) : Bool :=
  verifyRedChild t.root && parentChildMatch t && verifyBlackHeight t.root
    && blackRoot t.root && verifyCount t

/-! ## Zipper (paths through parent pointers) -/

/-- One step of context: the parent node's color/value/count, whether the
focus hangs on the parent's left, and the other subtree. -/
structure PathElem where
  isLeft : Bool
  red : Bool
  value : Int
  cnt : Nat
  other : RBNode
deriving Repr, DecidableEq

/-- A path from a focused subtree back to the root, innermost first. -/
abbrev Path := List PathElem

/-- Rebuild the parent node around a focused subtree. -/
def plugElem (t : RBNode) (e : PathElem) : RBNode :=
  .node e.red (if e.isLeft then t else e.other) e.value e.cnt
    (if e.isLeft then e.other else t)

/-- Rebuild the whole tree around a focused subtree. -/
def plug : RBNode → Path → RBNode
  | t, [] => t
  | t, e :: p => plug (plugElem t e) p

/-- `findNode` again, but returning the zipper to the found node; used to
model `remove`, which navigates back up through parent pointers. -/
def findZ : RBNode → Int → Path → Option (Path × RBNode)
  | .nil, _, _ => none
  | .node c l v k r, x, p =>
    if v = x then some (p, .node c l v k r)
    else if x < v then findZ l x (⟨true, c, v, k, r⟩ :: p)
    else findZ r x (⟨false, c, v, k, l⟩ :: p)

/-! ## Faults and insertion -/

/-- Abnormal outcomes of the modelled pointer code: a null-pointer
dereference, use of an uninitialized variable, or fuel exhaustion (the model's
bound on the non-structural fix-up recursions). -/
inductive Fault where
  | nullDeref : Fault
  | uninit : Fault
  | noFuel : Fault
deriving Repr, DecidableEq

/-- `restoreTree(Node* child)` from the source, on the zipper: `focus` is the
anchor node (`child`), `path` its context.  The root-color check runs first;
`child->parent` is the head of `path` (null when the path is empty);
the grandparent is the second element.  Each branch matches the statements of
the source in order: root recolor, Case I (black parent), Case II (red
uncle), Case III (child opposite side: rotate child up, recurse at the old
parent), Case IV (same side: swap colors of parent and grandparent and rotate
the parent up), and the implicit return when the anchor is black. -/
def restoreTree : Nat → RBNode → Path → Except Fault RBNode
  | 0, _, _ => .error .noFuel
  | fuel+1, focus, path =>
    if (plug focus path).isNil then .error .nullDeref
    else if (plug focus path).isRed then .ok (setRootBlack (plug focus path))
    else
      match path with
      | [] => .error .nullDeref
      | e1 :: rest =>
        if !e1.red then .ok (plug focus path)
        else if focus.isRed && e1.red then
          match rest with
          | [] => .error .nullDeref
          | e2 :: rest2 =>
            if e2.other.isRed then
              restoreTree fuel
                (plugElem (plugElem focus {e1 with red := false})
                  {e2 with red := true, other := setRootBlack e2.other})
                rest2
            else if e2.isLeft && !e1.isLeft then
              -- rotate the (red, hence live) anchor up; fix at the old parent
              restoreTree fuel (.node e1.red e1.other e1.value e1.cnt focus.leftOf)
                (⟨true, focus.isRed, focus.valueOf, focus.cntOf, focus.rightOf⟩ :: rest)
            else if !e2.isLeft && e1.isLeft then
              restoreTree fuel (.node e1.red focus.rightOf e1.value e1.cnt e1.other)
                (⟨false, focus.isRed, focus.valueOf, focus.cntOf, focus.leftOf⟩ :: rest)
            else
              -- Case IV, with the rebuilt parent written out field by field
              if e2.isLeft then
                .ok (plug (.node e2.red (if e1.isLeft then focus else e1.other)
                  e1.value e1.cnt
                  (.node (!e2.red) (if e1.isLeft then e1.other else focus)
                    e2.value e2.cnt e2.other)) rest2)
              else
                .ok (plug (.node e2.red
                  (.node (!e2.red) e2.other e2.value e2.cnt
                    (if e1.isLeft then focus else e1.other))
                  e1.value e1.cnt (if e1.isLeft then e1.other else focus)) rest2)
        else .ok (plug focus path)

/-- `recursiveInsert(value, currNode)` from the source (the root-null case is
handled in `insert`): equality bumps the count, otherwise descend; reaching a
null child slot creates a red node there and runs the fix-up anchored at it.
The fuel handed to `restoreTree` is enough for its recursion (proved below). -/
def recursiveInsert (x : Int) : RBNode → Path → Except Fault RBNode
  | .nil, _ => .error .uninit
  | .node c l v k r, p =>
    if x = v then .ok (plug (.node c l v (k+1) r) p)
    else if x < v then
      if l.isNil then
        restoreTree (p.length + 3) (.node true .nil x 1 .nil) (⟨true, c, v, k, r⟩ :: p)
      else recursiveInsert x l (⟨true, c, v, k, r⟩ :: p)
    else
      if r.isNil then
        restoreTree (p.length + 3) (.node true .nil x 1 .nil) (⟨false, c, v, k, l⟩ :: p)
      else recursiveInsert x r (⟨false, c, v, k, l⟩ :: p)

/-- `insert(value)` from the source: bump `numElems`, then insert (creating a
black root when the tree is empty — `makeNode(value, NULL, false)`). -/
def insert (t : Tree) (x : Int) : Except Fault Tree :=
  match t.root with
  | .nil => .ok ⟨.node false .nil x 1 .nil, t.numElems + 1⟩
  | .node c l v k r =>
    match recursiveInsert x (.node c l v k r) [] with
    | .ok rt => .ok ⟨rt, t.numElems + 1⟩
    | .error f => .error f

/-! ## Deletion -/

/-- The sibling-selection prologue of `deleteRestoreTree` (source lines
569-575): `Node* sibling; bool left = false;` then two `if`s comparing the
parent's child pointers against `notSibling`.  Here `ns = none` models
`notSibling == NULL` and `ns = some b` models a pointer to the node currently
occupying the left (`b = true`) or right child slot, so pointer disequality
`parent->lChild != notSibling` becomes: non-nil-ness when `ns = none`, and
slot disagreement otherwise (distinct live nodes never compare equal).  When
both `if`s would fire (only possible in the corrupt state `ns = none` with two
live children, where the C++ code goes on to corrupt the graph) or neither
fires, the model reports the uninitialized read / corruption as a fault. -/
def pickSibling (l r : RBNode) (ns : Option Bool) : Except Fault (RBNode × Bool) :=
  let c1 : Bool := match ns with
    | none => !l.isNil
    | some b => !b
  let c2 : Bool := match ns with
    | none => !r.isNil
    | some b => b
  if c1 && c2 then .error .uninit
  else if c2 then .ok (r, false)
  else if c1 then .ok (l, true)
  else .error .uninit

/-- `deleteRestoreTree(Node* parent, Node* notSibling)` from the source, on
the zipper: the anchor parent is the focused subtree (null parent, Case 0, is
reached through the recursion of Case II and handled there by returning the
rebuilt tree).  The five cases follow the source in order; `left` is the
source's flag meaning the sibling sits on the parent's left.  Case IV's
condition evaluates the short-circuit dereferences of the inside child
exactly as written in the source. -/
def deleteRestoreTree : Nat → Path → RBNode → Option Bool → Except Fault RBNode
  | 0, _, _, _ => .error .noFuel
  | _+1, _, .nil, _ => .error .nullDeref
  | fuel+1, path, .node pc pl pv pk pr, ns =>
    (pickSibling pl pr ns).bind fun sbl =>
    let sib := sbl.1
    let left := sbl.2
    if sib.isNil then .error .nullDeref     -- sibling->red on a null sibling
    else
      let sc := sib.isRed
      let sl := sib.leftOf
      let sv := sib.valueOf
      let sk := sib.cntOf
      let sr := sib.rightOf
      if sc then
        -- Case I: red sibling; swap colors with the parent, rotate the
        -- sibling up, and retry at the same anchor (now one level deeper).
        if left then
          deleteRestoreTree fuel (⟨false, pc, sv, sk, sl⟩ :: path)
            (.node (!pc) sr pv pk pr) ns
        else
          deleteRestoreTree fuel (⟨true, pc, sv, sk, sr⟩ :: path)
            (.node (!pc) pl pv pk sl) ns
      else if !pc && !sc && !sl.isRed && !sr.isRed then
        -- Case II: all black; recolor the sibling red and push the
        -- deficiency up (`deleteRestoreTree(parent->parent, parent)`).
        let p' := if left then RBNode.node pc (.node true sl sv sk sr) pv pk pr
                  else RBNode.node pc pl pv pk (.node true sl sv sk sr)
        match path with
        | [] => .ok p'
        | e :: rest => deleteRestoreTree fuel rest (plugElem p' e) (some e.isLeft)
      else if pc && !sl.isRed && !sr.isRed then
        -- Case III: red parent, black sibling and nephews; swap colors.
        let p' := if left then RBNode.node (!pc) (.node pc sl sv sk sr) pv pk pr
                  else RBNode.node (!pc) pl pv pk (.node pc sl sv sk sr)
        .ok (plug p' path)
      else
        -- Case IV: red inside nephew, black outside nephew; swap colors of
        -- the sibling and its inside child, rotate that child up, retry.
        -- The condition evaluates the source's short-circuit dereferences:
        -- `(!left && (sr==NULL || !sr->red) && sl->red) ||
        --  ((left && (sl==NULL || !sl->red)) && sr->red)`.
        let case4 : RBNode → Except Fault RBNode := fun child =>
          if left then
            deleteRestoreTree fuel path
              (.node pc (.node (!child.isRed)
                (.node child.isRed sl sv sk child.leftOf)
                child.valueOf child.cntOf child.rightOf) pv pk pr) ns
          else
            deleteRestoreTree fuel path
              (.node pc pl pv pk (.node (!child.isRed)
                child.leftOf child.valueOf child.cntOf
                (.node child.isRed child.rightOf sv sk sr))) ns
        let rest45 : Except Fault RBNode :=
          if (!left && sr.isRed) || (left && sl.isRed) then
            -- Case V: red outside nephew; swap sibling/parent colors,
            -- blacken the outside nephew, rotate the sibling up.  Done.
            if left then
              .ok (plug (.node pc (setRootBlack sl) sv sk (.node sc sr pv pk pr)) path)
            else
              .ok (plug (.node pc (.node sc pl pv pk sl) sv sk (setRootBlack sr)) path)
          else .ok (plug (.node pc pl pv pk pr) path)
        if !left && !sr.isRed then
          if sl.isNil then .error .nullDeref  -- sl->red dereferences null
          else if sl.isRed then case4 sl
          else rest45
        else if left && !sl.isRed then
          if sr.isNil then .error .nullDeref  -- sr->red dereferences null
          else if sr.isRed then case4 sr
          else rest45
        else rest45

/-- The `while` loop of `inOrderPredecessor` (source lines 540-547): walk to
the rightmost node, extending the zipper.  Applied to a non-null left child
it returns the in-order predecessor together with its relative path. -/
def rightmostZ : RBNode → Path → Path × RBNode
  | .nil, p => (p, .nil)
  | .node c l v k .nil, p => (p, .node c l v k .nil)
  | .node c l v k (.node rc rl rv rk rr), p =>
    rightmostZ (.node rc rl rv rk rr) (⟨false, c, v, k, l⟩ :: p)

/-- The one- and zero-child cases of `rbDelete(Node*)` (the recursive call on
the in-order predecessor always lands here, because the predecessor has a null
right child).  Case 1 splices the single child in place of the node — but
only when the `!currNode->red && child->red` guard holds; if the guard fails
the source deletes nothing.  Case 2 detaches the leaf, and runs
`deleteRestoreTree(parent, NULL)` when the detached leaf was black. -/
def rbDeleteAux (sub : RBNode) (p : Path) : Except Fault RBNode :=
  match sub with
  | .nil => .error .uninit
  | .node c l v k r =>
    if numNullChildren (.node c l v k r) = 1 then
      -- if (lChild != NULL) child = lChild; if (rChild != NULL) child = rChild;
      let child := if !l.isNil then l else r
      if !c && child.isRed then .ok (plug (setRootBlack child) p)
      else .ok (plug (.node c l v k r) p)
    else if numNullChildren (.node c l v k r) = 2 then
      match p with
      | [] => .ok .nil      -- the root leaf: delete root, root = NULL
      | e :: rest =>
        let p' := if e.isLeft then RBNode.node e.red .nil e.value e.cnt e.other
                  else RBNode.node e.red e.other e.value e.cnt .nil
        if !c then deleteRestoreTree (rest.length + 6) rest p' none
        else .ok (plug p' rest)
    else .error .uninit

/-- `rbDelete(Node*)` from the source.  The two-children case finds the
in-order predecessor, swaps `value`/`count` with it (exactly, as the `int`
temporary of `swap` is lossless at `ElemType = int`), and deletes the
predecessor; since the predecessor always has a null right child, the
recursive call is unrolled into `rbDeleteAux`. -/
def rbDelete (sub : RBNode) (p : Path) : Except Fault RBNode :=
  match sub with
  | .node c (.node lc ll lv lk lr) v k (.node rc rl rv rk rr) =>
    let z := rightmostZ (.node lc ll lv lk lr) []
    let pp := z.1
    let pred := z.2
    if pred.isNil then .error .uninit
    else
      rbDeleteAux (.node pred.isRed pred.leftOf v k pred.rightOf)
        (pp ++ ⟨true, c, pred.valueOf, pred.cntOf, .node rc rl rv rk rr⟩ :: p)
  | _ => rbDeleteAux sub p

/-- Outcome of `remove`: success, the `NotFound` exception (carrying the
unchanged tree the caller still holds), or a fault of the modelled code. -/
inductive RResult where
  | ok : Tree → RResult
  | notFound : Tree → RResult
  | fault : Fault → RResult
deriving Repr, DecidableEq

/-- `remove(value)` from the source: find the node (throwing `NotFound`
before any mutation when absent), decrement a count above 1, otherwise delete
structurally; finally decrement `numElems`. -/
def remove (t : Tree) (x : Int) : RResult :=
  match findZ t.root x [] with
  | none => .notFound t
  | some (_, .nil) => .fault .uninit
  | some (p, .node c l v k r) =>
    if k ≠ 1 then .ok ⟨plug (.node c l v (k-1) r) p, t.numElems - 1⟩
    else
      match rbDelete (.node c l v k r) p with
      | .ok rt => .ok ⟨rt, t.numElems - 1⟩
      | .error f => .fault f

/-! ## Copy, assignment, operation sequences -/

/-- `copyTree(from, into, parent)` from the source: allocate a fresh node,
copy `value`, `count`, `red`, recurse on the children (the `parent` field of
the copy is the derived one). -/
def copyTree : RBNode → RBNode
  | .nil => .nil
  | .node c l v k r => .node c (copyTree l) v k (copyTree r)

/-- The copy constructor: copy `numElems`, deep-copy the graph. -/
def copyCtor (other : Tree) : Tree := ⟨copyTree other.root, other.numElems⟩

/-- `operator=`: the self-assignment guard `this != &other` is the
`sameObject` flag; otherwise clear, copy `numElems`, deep-copy. -/
def assign (sameObject : Bool) (dest other : Tree) : Tree :=
  if sameObject then dest else ⟨copyTree other.root, other.numElems⟩

/-- A public mutating operation. -/
inductive Op where
  | ins : Int → Op
  | rem : Int → Op
deriving Repr, DecidableEq

/-- Outcome of running a sequence of operations. -/
inductive RunRes where
  | ok : Tree → RunRes
  | notFound : RunRes
  | fault : Fault → RunRes
deriving Repr, DecidableEq

/-- Run a sequence of `insert`/`remove` calls. -/
def runOps : Tree → List Op → RunRes
  | t, [] => .ok t
  | t, .ins x :: rest =>
    match insert t x with
    | .ok t' => runOps t' rest
    | .error f => .fault f
  | t, .rem x :: rest =>
    match remove t x with
    | .ok t' => runOps t' rest
    | .notFound _ => .notFound
    | .fault f => .fault f

/-- The precondition of claim C1 on a sequence: every `remove` targets a
value whose count is at least 1 at the time of the call. -/
def precOkB : Tree → List Op → Bool
  | _, [] => true
  | t, .ins x :: rest =>
    match insert t x with
    | .ok t' => precOkB t' rest
    | .error _ => true
  | t, .rem x :: rest =>
    decide (1 ≤ countVal t.root x) &&
      match remove t x with
      | .ok t' => precOkB t' rest
      | _ => true

/-! ## The value swap at a non-integral element type (claim C6)

`swap` (source lines 527-535) declares `int temp` and routes the generic
`ElemType` value through it.  At `ElemType = int` this is lossless (and the
main model above inlines it exactly); at an ordered non-integral numeric type
the conversion truncates.  `swapQ` is `swap` instantiated at a rational
element type, with the C++ floating-to-integral conversion (truncation toward
zero) made explicit. -/

/-- C++ conversion of a rational (e.g. `double`) to `int`: truncation toward
zero. -/
def cppTrunc (q : ℚ) : Int := q.num.tdiv (q.den : Int)

/-- The two fields of a node that `swap` touches. -/
structure QNode where
  value : ℚ
  cnt : Nat
deriving Repr, DecidableEq

/-- `swap(Node* left, Node* right)` at a rational element type, statement by
statement. -/
def swapQ (a b : QNode) : QNode × QNode :=
  let temp : Int := cppTrunc a.value        -- int temp = left->value;
  let a1 : QNode := ⟨b.value, a.cnt⟩        -- left->value = right->value;
  let b1 : QNode := ⟨(temp : ℚ), b.cnt⟩     -- right->value = temp;
  let temp2 : Int := (a1.cnt : Int)         -- temp = left->count;
  let a2 : QNode := ⟨a1.value, b1.cnt⟩      -- left->count = right->count;
  let b2 : QNode := ⟨b1.value, temp2.toNat⟩ -- right->count = temp;
  (a2, b2)

/-! ## Semantic layer: in-order lists -/

/-- In-order list of `(value, count)` entries. -/
def inorder : RBNode → List (Int × Nat)
  | .nil => []
  | .node _ l v k r => inorder l ++ (v, k) :: inorder r

/-- Count of a value in an entry list. -/
def cntL : List (Int × Nat) → Int → Nat
  | [], _ => 0
  | (v, k) :: l, x => (if v = x then k else 0) + cntL l x

/-- Sum of the counts in an entry list. -/
def sumCnt : List (Int × Nat) → Nat
  | [] => 0
  | (_, k) :: l => k + sumCnt l

/-- Strict order on entries (by key). -/
def entLT (a b : Int × Nat) : Prop := a.1 < b.1

/-- The part of the in-order list contributed by a path to the left of the
hole. -/
def iL : Path → List (Int × Nat)
  | [] => []
  | e :: rest =>
    if e.isLeft then iL rest
    else iL rest ++ inorder e.other ++ [(e.value, e.cnt)]

/-- The part of the in-order list contributed by a path to the right of the
hole. -/
def iR : Path → List (Int × Nat)
  | [] => []
  | e :: rest =>
    if e.isLeft then ((e.value, e.cnt) :: inorder e.other) ++ iR rest
    else iR rest

/-- The bounds a value must satisfy to sit in the hole of a path (recorded by
the branch directions of a descent). -/
def Fits : Path → Int → Prop
  | [], _ => True
  | e :: rest, x => (if e.isLeft then x < e.value else e.value < x) ∧ Fits rest x

/-! ## Balance invariant -/

/-- The red-black balance invariant: `Bal t c n` says the root has color `c`
(`true` = red), every red node has black children, and every path from the
root to an absent leaf carries `n` black nodes counting the absent leaf
(matching the convention of the source's `blackHeight`). -/
inductive Bal : RBNode → Bool → Nat → Prop where
  | nil : Bal .nil false 1
  | red {l r : RBNode} {v : Int} {k : Nat} {n : Nat} :
      Bal l false n → Bal r false n → Bal (.node true l v k r) true n
  | black {l r : RBNode} {v : Int} {k : Nat} {n : Nat} {c₁ c₂ : Bool} :
      Bal l c₁ n → Bal r c₂ n → Bal (.node false l v k r) false (n+1)

/-- Balance invariant for a path: `PBal c₀ n₀ path c n` means `path` is the
context of a red-black tree whose overall root must satisfy `(c₀, n₀)`, with
a hole accepting a subtree satisfying `(c, n)`. -/
inductive PBal (c₀ : Bool) (n₀ : Nat) : Path → Bool → Nat → Prop where
  | root : PBal c₀ n₀ [] c₀ n₀
  | redL {rest : Path} {v : Int} {k : Nat} {y : RBNode} {n : Nat} :
      Bal y false n → PBal c₀ n₀ rest true n →
      PBal c₀ n₀ (⟨true, true, v, k, y⟩ :: rest) false n
  | redR {rest : Path} {v : Int} {k : Nat} {y : RBNode} {n : Nat} :
      Bal y false n → PBal c₀ n₀ rest true n →
      PBal c₀ n₀ (⟨false, true, v, k, y⟩ :: rest) false n
  | blackL {rest : Path} {v : Int} {k : Nat} {y : RBNode}
      {n : Nat} {c₁ c₂ : Bool} :
      Bal y c₂ n → PBal c₀ n₀ rest false (n+1) →
      PBal c₀ n₀ (⟨true, false, v, k, y⟩ :: rest) c₁ n
  | blackR {rest : Path} {v : Int} {k : Nat} {y : RBNode}
      {n : Nat} {c₁ c₂ : Bool} :
      Bal y c₂ n → PBal c₀ n₀ rest false (n+1) →
      PBal c₀ n₀ (⟨false, false, v, k, y⟩ :: rest) c₁ n

/-- The sub-term relation on trees. -/
inductive Subtree : RBNode → RBNode → Prop where
  | refl (t : RBNode) : Subtree t t
  | left {s l : RBNode} {c : Bool} {v : Int} {k : Nat} {r : RBNode} :
      Subtree s l → Subtree s (.node c l v k r)
  | right {s l : RBNode} {c : Bool} {v : Int} {k : Nat} {r : RBNode} :
      Subtree s r → Subtree s (.node c l v k r)

/-- Executable balance checker; `balCheck t = some (c, n)` iff `Bal t c n`
(soundness proved below), used to discharge balance hypotheses on concrete
trees. -/
def balCheck : RBNode → Option (Bool × Nat)
  | .nil => some (false, 1)
  | .node c l _ _ r =>
    match balCheck l, balCheck r with
    | some (cl, nl), some (cr, nr) =>
      if nl = nr then
        if c then (if !cl && !cr then some (true, nl) else none)
        else some (false, nl + 1)
      else none
    | _, _ => none

/-- The well-formedness invariant every reachable tree satisfies. -/
def Good (t : Tree) : Prop :=
  (∃ n, Bal t.root false n) ∧
  List.Pairwise entLT (inorder t.root) ∧
  (∀ p ∈ inorder t.root, 1 ≤ p.2) ∧
  t.numElems = (sumCnt (inorder t.root) : Int)

/-! ## Basic lemmas: lists and plugging -/

theorem cntL_append (a b : List (Int × Nat)) (x : Int) :
    cntL (a ++ b) x = cntL a x + cntL b x := by
  induction a with
  | nil => simp [cntL]
  | cons h t ih => obtain ⟨v, k⟩ := h; simp [cntL, ih]; omega

theorem sumCnt_append (a b : List (Int × Nat)) :
    sumCnt (a ++ b) = sumCnt a + sumCnt b := by
  induction a with
  | nil => simp [sumCnt]
  | cons h t ih => obtain ⟨v, k⟩ := h; simp [sumCnt, ih]; omega

theorem countSum_eq_sumCnt (t : RBNode) : countSum t = sumCnt (inorder t) := by
  induction t with
  | nil => rfl
  | node c l v k r ihl ihr =>
    simp [countSum, inorder, ihl, ihr, sumCnt_append, sumCnt]; omega

@[simp] theorem plug_nil (t : RBNode) : plug t [] = t := rfl

@[simp] theorem plug_cons (t : RBNode) (e : PathElem) (p : Path) :
    plug t (e :: p) = plug (plugElem t e) p := rfl

theorem inorder_plugElem (t : RBNode) (e : PathElem) :
    inorder (plugElem t e) =
      if e.isLeft then inorder t ++ (e.value, e.cnt) :: inorder e.other
      else inorder e.other ++ (e.value, e.cnt) :: inorder t := by
  by_cases h : e.isLeft <;> simp [plugElem, h, inorder]

theorem inorder_plug (t : RBNode) (p : Path) :
    inorder (plug t p) = iL p ++ inorder t ++ iR p := by
  induction p generalizing t with
  | nil => simp [iL, iR]
  | cons e rest ih =>
    by_cases h : e.isLeft <;>
      simp [ih, inorder_plugElem, h, iL, iR]

theorem plug_node (t : RBNode) (e : PathElem) (p : Path) :
    ∃ c l v k r, plug t (e :: p) = RBNode.node c l v k r := by
  induction p generalizing t e with
  | nil =>
    by_cases h : e.isLeft
    · exact ⟨e.red, t, e.value, e.cnt, e.other, by simp [plugElem, h]⟩
    · exact ⟨e.red, e.other, e.value, e.cnt, t, by simp [plugElem, h]⟩
  | cons e2 rest ih => exact ih (plugElem t e) e2

/-! ## Basic lemmas: balance -/

theorem Bal.one_le {t : RBNode} {c : Bool} {n : Nat} (h : Bal t c n) : 1 ≤ n := by
  induction h with
  | nil => exact le_refl 1
  | red _ _ ih _ => exact ih
  | black _ _ ih _ => omega

theorem Bal.isRed_eq {t : RBNode} {c : Bool} {n : Nat} (h : Bal t c n) :
    t.isRed = c := by
  cases h <;> rfl

theorem Bal.not_nil {t : RBNode} {c : Bool} {n : Nat} (h : Bal t c n)
    (hn : 2 ≤ n) : t ≠ .nil := by
  intro he; subst he; cases h; omega

theorem Bal.black_of_not_red {t : RBNode} {c : Bool} {n : Nat} (h : Bal t c n)
    (hr : t.isRed = false) : c = false := by
  cases h <;> simp_all [RBNode.isRed]

theorem Bal.cnt_irrel {c : Bool} {l : RBNode} {v : Int} {k : Nat} {r : RBNode}
    {c' : Bool} {n : Nat} (h : Bal (.node c l v k r) c' n) (k' : Nat) :
    Bal (.node c l v k' r) c' n := by
  cases h with
  | red hl hr => exact .red hl hr
  | black hl hr => exact .black hl hr

/-- The left/right spine black height of a balanced subtree, as computed by
the source's `blackHeight` when the subtree is a child of the node under
check: an absent child counts 1, a red child contributes its own spine, a
black child one more. -/
def chi (t : RBNode) (d : Bool) : Nat :=
  match t with
  | .nil => 1
  | .node true l v k r => blackHeight (.node true l v k r) d
  | .node false l v k r => blackHeight (.node false l v k r) d + 1

theorem blackHeight_node (c : Bool) (l : RBNode) (v : Int) (k : Nat) (r : RBNode) :
    blackHeight (.node c l v k r) true = chi l true ∧
    blackHeight (.node c l v k r) false = chi r false := by
  constructor
  · cases l with
    | nil => rfl
    | node lc ll lv lk lr => cases lc <;> simp [blackHeight, chi]
  · cases r with
    | nil => rfl
    | node rc rl rv rk rr => cases rc <;> simp [blackHeight, chi]

theorem chi_node (c : Bool) (l : RBNode) (v : Int) (k : Nat) (r : RBNode) :
    ∀ d, chi (.node c l v k r) d =
      (if d then chi l true else chi r false) + (if c then 0 else 1) := by
  intro d
  have h := blackHeight_node c l v k r
  cases c <;> cases d <;> simp [chi, h.1, h.2]

theorem Bal.chi_eq {t : RBNode} {c : Bool} {n : Nat} (h : Bal t c n) :
    ∀ d, chi t d = n := by
  induction h with
  | nil => intro d; rfl
  | @red l r v k n hl hr ihl ihr =>
    intro d
    rw [chi_node]
    cases d <;> simp [ihl true, ihr false]
  | @black l r v k n c₁ c₂ hl hr ihl ihr =>
    intro d
    rw [chi_node]
    cases d <;> simp [ihl true, ihr false]

theorem Bal.verifyBlackHeight {t : RBNode} {c : Bool} {n : Nat} (h : Bal t c n) :
    verifyBlackHeight t = true := by
  induction h with
  | nil => rfl
  | @red l r v k n hl hr ihl ihr =>
    have hbl := blackHeight_node true l v k r
    rw [RBT.verifyBlackHeight]
    simp [hbl.1, hbl.2, hl.chi_eq, hr.chi_eq, ihl, ihr]
  | @black l r v k n c₁ c₂ hl hr ihl ihr =>
    have hbl := blackHeight_node false l v k r
    rw [RBT.verifyBlackHeight]
    simp [hbl.1, hbl.2, hl.chi_eq, hr.chi_eq, ihl, ihr]

theorem Bal.verifyRedChild {t : RBNode} {c : Bool} {n : Nat} (h : Bal t c n) :
    verifyRedChild t = true := by
  induction h with
  | nil => rfl
  | @red l r v k n hl hr ihl ihr =>
    rw [RBT.verifyRedChild]
    have h1 : l.isRed = false := hl.isRed_eq
    have h2 : r.isRed = false := hr.isRed_eq
    simp [h1, h2, ihl, ihr]
  | @black l r v k n c₁ c₂ hl hr ihl ihr =>
    rw [RBT.verifyRedChild]
    simp [ihl, ihr]

theorem Bal.blackRoot {t : RBNode} {n : Nat} (h : Bal t false n) :
    blackRoot t = true := by
  cases h <;> rfl

theorem balCheck_sound {t : RBNode} {c : Bool} {n : Nat}
    (h : balCheck t = some (c, n)) : Bal t c n := by
  induction t generalizing c n with
  | nil => simp [balCheck] at h; obtain ⟨h1, h2⟩ := h; subst h1; subst h2; exact .nil
  | node tc l v k r ihl ihr =>
    rw [balCheck] at h
    cases hbl : balCheck l with
    | none => rw [hbl] at h; simp at h
    | some pl =>
      cases hbr : balCheck r with
      | none => rw [hbl, hbr] at h; simp at h
      | some pr =>
        obtain ⟨cl, nl⟩ := pl; obtain ⟨cr, nr⟩ := pr
        rw [hbl, hbr] at h
        simp only at h
        by_cases he : nl = nr
        · subst he
          simp only [if_pos rfl] at h
          cases tc with
          | true =>
            by_cases hc : !cl && !cr
            · rw [if_pos hc] at h
              simp at h hc
              obtain ⟨h1, h2⟩ := h
              subst h1; subst h2
              obtain ⟨hc1, hc2⟩ := hc; subst hc1; subst hc2
              exact .red (ihl hbl) (ihr hbr)
            · rw [if_neg hc] at h; simp at h
          | false =>
            simp at h
            obtain ⟨h1, h2⟩ := h
            subst h1; subst h2
            exact .black (ihl hbl) (ihr hbr)
        · rw [if_neg he] at h; simp at h

/-! ## Basic lemmas: path balance -/

/-- `PBal.blackL` with the two child colors positional, for explicit use. -/
theorem PBal.blackL' {c₀ : Bool} {n₀ : Nat} {rest : Path} {v : Int} {k : Nat}
    {y : RBNode} {n : Nat} (c₁ c₂ : Bool) (hy : Bal y c₂ n)
    (hrest : PBal c₀ n₀ rest false (n+1)) :
    PBal c₀ n₀ (⟨true, false, v, k, y⟩ :: rest) c₁ n := PBal.blackL hy hrest

/-- `PBal.blackR` with the two child colors positional, for explicit use. -/
theorem PBal.blackR' {c₀ : Bool} {n₀ : Nat} {rest : Path} {v : Int} {k : Nat}
    {y : RBNode} {n : Nat} (c₁ c₂ : Bool) (hy : Bal y c₂ n)
    (hrest : PBal c₀ n₀ rest false (n+1)) :
    PBal c₀ n₀ (⟨false, false, v, k, y⟩ :: rest) c₁ n := PBal.blackR hy hrest

/-- Filling the hole of a balanced path (black overall root) with a subtree
of the expected height, and either the expected color or black, yields a
balanced tree. -/
theorem PBal.fill {n₀ : Nat} {path : Path} {c : Bool} {n : Nat} {t : RBNode} {c' : Bool}
    (hp : PBal false n₀ path c n) (ht : Bal t c' n) (hc : c' = false ∨ c' = c) :
    Bal (plug t path) false n₀ := by
  induction hp generalizing t c' with
  | root =>
    have : c' = false := by rcases hc with h | h <;> simp_all
    subst this; exact ht
  | @redL rest v k y m hy hrest ih =>
    have hcf : c' = false := by rcases hc with h | h <;> simp_all
    subst hcf
    exact ih (by simpa [plugElem] using Bal.red ht hy) (Or.inr rfl)
  | @redR rest v k y m hy hrest ih =>
    have hcf : c' = false := by rcases hc with h | h <;> simp_all
    subst hcf
    exact ih (by simpa [plugElem] using Bal.red hy ht) (Or.inr rfl)
  | @blackL rest v k y m c₁ c₂ hy hrest ih =>
    exact ih (by simpa [plugElem] using Bal.black ht hy) (Or.inl rfl)
  | @blackR rest v k y m c₁ c₂ hy hrest ih =>
    exact ih (by simpa [plugElem] using Bal.black hy ht) (Or.inl rfl)

/-- Concatenating a path fragment (inner) with a path (outer). -/
theorem PBal.append {c₁ : Bool} {n₁ : Nat} {p2 : Path} {c₂ : Bool} {n₂ : Nat}
    {p1 : Path} {c₃ : Bool} {n₃ : Nat}
    (h2 : PBal c₁ n₁ p2 c₂ n₂) (h1 : PBal c₂ n₂ p1 c₃ n₃) :
    PBal c₁ n₁ (p1 ++ p2) c₃ n₃ := by
  induction h1 with
  | root => simpa using h2
  | redL hy _ ih => exact .redL hy ih
  | redR hy _ ih => exact .redR hy ih
  | blackL hy _ ih => exact .blackL' _ _ hy ih
  | blackR hy _ ih => exact .blackR' _ _ hy ih

@[simp] theorem isRed_node (c : Bool) (l : RBNode) (v : Int) (k : Nat) (r : RBNode) :
    (RBNode.node c l v k r).isRed = c := by
  cases c <;> rfl

@[simp] theorem leftOf_node (c : Bool) (l : RBNode) (v : Int) (k : Nat) (r : RBNode) :
    (RBNode.node c l v k r).leftOf = l := rfl

@[simp] theorem rightOf_node (c : Bool) (l : RBNode) (v : Int) (k : Nat) (r : RBNode) :
    (RBNode.node c l v k r).rightOf = r := rfl

@[simp] theorem valueOf_node (c : Bool) (l : RBNode) (v : Int) (k : Nat) (r : RBNode) :
    (RBNode.node c l v k r).valueOf = v := rfl

@[simp] theorem cntOf_node (c : Bool) (l : RBNode) (v : Int) (k : Nat) (r : RBNode) :
    (RBNode.node c l v k r).cntOf = k := rfl

@[simp] theorem isRed_nil : (RBNode.nil).isRed = false := rfl

@[simp] theorem isNil_node (c : Bool) (l : RBNode) (v : Int) (k : Nat) (r : RBNode) :
    (RBNode.node c l v k r).isNil = false := rfl

@[simp] theorem isNil_nil : (RBNode.nil).isNil = true := rfl

@[simp] theorem inorder_nil : inorder .nil = [] := rfl

@[simp] theorem inorder_node (c : Bool) (l : RBNode) (v : Int) (k : Nat) (r : RBNode) :
    inorder (.node c l v k r) = inorder l ++ (v, k) :: inorder r := rfl

@[simp] theorem inorder_setRootBlack (t : RBNode) :
    inorder (setRootBlack t) = inorder t := by
  cases t <;> rfl

@[simp] theorem plugElem_red (t : RBNode) (e : PathElem) :
    (plugElem t e).isRed = e.red := by
  rw [plugElem]; simp

theorem plug_isRed_head {t : RBNode} {e : PathElem} :
    (plug t [e]).isRed = e.red := by
  simp [plugElem]

/-! ## Lookup lemmas -/

theorem plug_isNil_cons (focus : RBNode) (e1 : PathElem) (rest : Path) :
    (plug focus (e1 :: rest)).isNil = false := by
  obtain ⟨c', l', v', k', r', hp⟩ := plug_node focus e1 rest
  rw [hp]; rfl

theorem cntL_eq_zero {l : List (Int × Nat)} {x : Int} (h : ∀ a ∈ l, a.1 ≠ x) :
    cntL l x = 0 := by
  induction l with
  | nil => rfl
  | cons hd tl ih =>
    obtain ⟨hv, hk⟩ := hd
    rw [cntL, ih (fun a ha => h a (by simp [ha]))]
    have : hv ≠ x := by simpa using h (hv, hk) (by simp)
    simp [this]

theorem findZ_plug {t : RBNode} {x : Int} {acc p : Path} {s : RBNode}
    (h : findZ t x acc = some (p, s)) : plug s p = plug t acc := by
  induction t generalizing acc with
  | nil => simp [findZ] at h
  | node c l v k r ihl ihr =>
    rw [findZ] at h
    by_cases h1 : v = x
    · rw [if_pos h1] at h
      simp at h
      obtain ⟨h2, h3⟩ := h
      subst h2; subst h3; rfl
    · by_cases h2 : x < v
      · rw [if_neg h1, if_pos h2] at h
        simpa [plugElem] using ihl h
      · rw [if_neg h1, if_neg h2] at h
        simpa [plugElem] using ihr h

theorem findZ_eq_findNode {t : RBNode} {x : Int} {acc : Path} :
    (findZ t x acc).map Prod.snd = findNode t x := by
  induction t generalizing acc with
  | nil => simp [findZ, findNode]
  | node c l v k r ihl ihr =>
    rw [findZ, findNode]
    by_cases h1 : v = x
    · simp [h1]
    · by_cases h2 : x < v <;> simp [h1, h2, ihl, ihr]

theorem findNode_mem {t : RBNode} {x : Int} {s : RBNode}
    (h : findNode t x = some s) :
    ∃ c l k r, s = .node c l x k r ∧ (x, k) ∈ inorder t := by
  induction t with
  | nil => simp [findNode] at h
  | node c l v k r ihl ihr =>
    rw [findNode] at h
    by_cases h1 : v = x
    · subst h1
      rw [if_pos rfl] at h
      simp at h
      exact ⟨c, l, k, r, h.symm, by simp [inorder]⟩
    · by_cases h2 : x < v
      · rw [if_neg h1, if_pos h2] at h
        obtain ⟨c', l', k', r', h3, h4⟩ := ihl h
        exact ⟨c', l', k', r', h3, by simp [inorder, h4]⟩
      · rw [if_neg h1, if_neg h2] at h
        obtain ⟨c', l', k', r', h3, h4⟩ := ihr h
        exact ⟨c', l', k', r', h3, by simp [inorder, h4]⟩

/-- Under the search-order invariant, `count` computes the total multiplicity
recorded in the in-order list. -/
theorem countVal_eq_cntL {t : RBNode} (hs : List.Pairwise entLT (inorder t)) (x : Int) :
    countVal t x = cntL (inorder t) x := by
  induction t with
  | nil => simp [countVal, findNode, cntL, inorder]
  | node c l v k r ihl ihr =>
    have hsl : List.Pairwise entLT (inorder l) :=
      (List.pairwise_append.mp (by simpa [inorder] using hs)).1
    have hsr : List.Pairwise entLT (inorder r) :=
      ((List.pairwise_append.mp (by simpa [inorder] using hs)).2.1).sublist
        (List.sublist_cons_self _ _)
    have hcross := (List.pairwise_append.mp (by simpa [inorder] using hs)).2.2
    have hvr : ∀ b ∈ inorder r, v < b.1 := by
      intro b hb
      have := (List.pairwise_cons.mp
        (List.pairwise_append.mp (by simpa [inorder] using hs)).2.1).1 b hb
      exact this
    have hlv : ∀ a ∈ inorder l, a.1 < v := by
      intro a ha
      exact hcross a ha (v, k) (by simp)
    rw [countVal, findNode, inorder]
    by_cases h1 : v = x
    · subst h1
      have hL : cntL (inorder l) v = 0 :=
        cntL_eq_zero (fun a ha => by have := hlv a ha; omega)
      have hR : cntL (inorder r) v = 0 :=
        cntL_eq_zero (fun a ha => by have := hvr a ha; omega)
      simp [cntL_append, cntL, hL, hR, RBNode.cntOf]
    · by_cases h2 : x < v
      · have hR : cntL (inorder r) x = 0 :=
          cntL_eq_zero (fun a ha => by have := hvr a ha; omega)
        simp only [if_neg h1, if_pos h2]
        rw [cntL_append, cntL]
        have h3 : countVal l x = cntL (inorder l) x := ihl hsl
        rw [countVal] at h3
        rw [h3]
        simp [h1, hR]
      · have hL : cntL (inorder l) x = 0 :=
          cntL_eq_zero (fun a ha => by have := hlv a ha; omega)
        simp only [if_neg h1, if_neg h2]
        rw [cntL_append, cntL]
        have h3 : countVal r x = cntL (inorder r) x := ihr hsr
        rw [countVal] at h3
        rw [h3]
        simp [h1, hL]

/-! ## Parent pointers of the heap view -/

/-- The heap layout of any tree passes the source's `parentChildMatch` check:
each stored child's parent pointer is the address of the node holding it. -/
theorem encodeAt_parentField (t : RBNode) (par : Option (List Bool)) (addr : List Bool) :
    (match encodeAt t par addr with
     | .nil => true
     | .node p _ _ _ _ _ => p == par) = true := by
  cases t <;> simp [encodeAt]

theorem parentChildMatchAt_encode (t : RBNode) :
    ∀ par addr, parentChildMatchAt (encodeAt t par addr) addr = true := by
  induction t with
  | nil => intro par addr; rfl
  | node c l v k r ihl ihr =>
    intro par addr
    rw [encodeAt]
    simp only [parentChildMatchAt]
    rw [encodeAt_parentField, encodeAt_parentField, ihl, ihr]
    simp

/-- In a context with a black overall root, the rebuilt tree root is black
whenever the path is nonempty. -/
theorem PBal.plug_black {n₀ : Nat} {e : PathElem} {rest : Path} {c : Bool} {n : Nat}
    (hp : PBal false n₀ (e :: rest) c n) (t : RBNode) :
    (plug t (e :: rest)).isRed = false := by
  induction rest generalizing e t c n with
  | nil =>
    cases hp with
    | redL hy hrest => cases hrest
    | redR hy hrest => cases hrest
    | blackL hy hrest => simp [plugElem, RBNode.isRed]
    | blackR hy hrest => simp [plugElem, RBNode.isRed]
  | cons e2 rest2 ih =>
    cases hp with
    | redL hy hrest => exact ih hrest (plugElem t _)
    | redR hy hrest => exact ih hrest (plugElem t _)
    | blackL hy hrest => exact ih hrest (plugElem t _)
    | blackR hy hrest => exact ih hrest (plugElem t _)

/-- Unfolding lemma for `restoreTree` at positive fuel and empty path. -/
theorem restoreTree_succ_nil (fuel : Nat) (focus : RBNode) :
    restoreTree (fuel+1) focus [] =
    if focus.isNil then .error .nullDeref
    else if focus.isRed then .ok (setRootBlack focus)
    else .error .nullDeref := rfl

/-- Unfolding lemma for `restoreTree` at positive fuel and singleton path. -/
theorem restoreTree_succ_one (fuel : Nat) (focus : RBNode) (e1 : PathElem) :
    restoreTree (fuel+1) focus [e1] =
    if (plug focus [e1]).isNil then .error .nullDeref
    else if (plug focus [e1]).isRed then .ok (setRootBlack (plug focus [e1]))
    else
      if !e1.red then .ok (plug focus [e1])
      else if focus.isRed && e1.red then .error .nullDeref
      else .ok (plug focus [e1]) := rfl

/-- Unfolding lemma for `restoreTree` at positive fuel and a path of length
at least two. -/
theorem restoreTree_succ_two (fuel : Nat) (focus : RBNode) (e1 e2 : PathElem)
    (rest2 : Path) :
    restoreTree (fuel+1) focus (e1 :: e2 :: rest2) =
    if (plug focus (e1 :: e2 :: rest2)).isNil then .error .nullDeref
    else if (plug focus (e1 :: e2 :: rest2)).isRed then
      .ok (setRootBlack (plug focus (e1 :: e2 :: rest2)))
    else
      if !e1.red then .ok (plug focus (e1 :: e2 :: rest2))
      else if focus.isRed && e1.red then
        if e2.other.isRed then
          restoreTree fuel
            (plugElem (plugElem focus {e1 with red := false})
              {e2 with red := true, other := setRootBlack e2.other})
            rest2
        else if e2.isLeft && !e1.isLeft then
          restoreTree fuel (.node e1.red e1.other e1.value e1.cnt focus.leftOf)
            (⟨true, focus.isRed, focus.valueOf, focus.cntOf, focus.rightOf⟩ :: e2 :: rest2)
        else if !e2.isLeft && e1.isLeft then
          restoreTree fuel (.node e1.red focus.rightOf e1.value e1.cnt e1.other)
            (⟨false, focus.isRed, focus.valueOf, focus.cntOf, focus.leftOf⟩ :: e2 :: rest2)
        else
          if e2.isLeft then
            .ok (plug (.node e2.red (if e1.isLeft then focus else e1.other)
              e1.value e1.cnt
              (.node (!e2.red) (if e1.isLeft then e1.other else focus)
                e2.value e2.cnt e2.other)) rest2)
          else
            .ok (plug (.node e2.red
              (.node (!e2.red) e2.other e2.value e2.cnt
                (if e1.isLeft then focus else e1.other))
              e1.value e1.cnt (if e1.isLeft then e1.other else focus)) rest2)
      else .ok (plug focus (e1 :: e2 :: rest2)) := rfl

/-! ## Safety of the insert fix-up

The root-color check runs first; on the branch where the anchor's parent is
examined, the invariant "an empty path implies a red focus" rules the null
dereference out, and within the case analysis a red-red violation directly
under a black root forces the grandparent to exist. -/

theorem restoreTree_zero (focus : RBNode) (path : Path) :
    restoreTree 0 focus path = .error .noFuel := rfl

theorem restoreTree_safety : ∀ (fuel : Nat) (focus : RBNode) (path : Path),
    (path = [] → focus.isRed = true) →
    restoreTree fuel focus path ≠ .error .nullDeref := by
  intro fuel
  induction fuel with
  | zero => intro focus path _ h; rw [restoreTree_zero] at h; exact absurd h (by simp)
  | succ fuel ih =>
    intro focus path hroot
    cases path with
    | nil =>
      have h1 : focus.isRed = true := hroot rfl
      rw [restoreTree_succ_nil]
      cases focus with
      | nil => simp at h1
      | node c l v k r =>
        simp at h1
        simp [h1]
    | cons e1 rest =>
      cases rest with
      | nil =>
        rw [restoreTree_succ_one]
        have hnn : (plug focus [e1]).isNil = false := by simp [plugElem]
        rw [hnn]
        simp only [Bool.false_eq_true, if_neg (by simp : ¬False)]
        by_cases hred : (plug focus [e1]).isRed = true
        · simp only [plug_cons, plug_nil, plugElem_red] at hred
          simp [hred]
        · have hr2 : e1.red = false := by
            have h2 : (plug focus [e1]).isRed = e1.red := plug_isRed_head
            rw [h2] at hred
            simpa using hred
          simp [hred, hr2]
      | cons e2 rest2 =>
        rw [restoreTree_succ_two]
        obtain ⟨c', l', v', k', r', hp⟩ := plug_node focus e1 (e2 :: rest2)
        have hnn : (plug focus (e1 :: e2 :: rest2)).isNil = false := by rw [hp]; simp
        rw [hnn]
        simp only [Bool.false_eq_true, if_neg (by simp : ¬False)]
        by_cases hred : (plug focus (e1 :: e2 :: rest2)).isRed = true
        · simp only [plug_cons] at hred
          simp [hred]
        · rw [if_neg hred]
          by_cases he1 : e1.red = true
          · rw [he1]
            by_cases hfr : focus.isRed = true
            · rw [hfr]
              simp only [Bool.not_true, Bool.and_self, Bool.false_eq_true,
                if_neg (by simp : ¬False), if_pos rfl]
              by_cases hu : e2.other.isRed = true
              · simp only [hu, if_pos rfl]
                exact ih _ _ (fun h => by simp [plugElem])
              · simp only [hu, Bool.false_eq_true, if_neg (by simp : ¬False)]
                by_cases h31 : (e2.isLeft && !e1.isLeft) = true
                · simp only [h31, if_pos rfl]
                  exact ih _ _ (fun h => by simp at h)
                · simp only [h31, Bool.false_eq_true, if_neg (by simp : ¬False)]
                  by_cases h32 : (!e2.isLeft && e1.isLeft) = true
                  · simp only [h32, if_pos rfl]
                    exact ih _ _ (fun h => by simp at h)
                  · simp only [h32, Bool.false_eq_true, if_neg (by simp : ¬False)]
                    by_cases h4 : e2.isLeft = true <;> simp [h4]
            · have hfr' : focus.isRed = false := by simpa using hfr
              simp [hfr']
          · have he1' : e1.red = false := by simpa using he1
            simp [he1']

/-! ## Execution of the insert fix-up, branch by branch -/

theorem restoreTree_blackParent {fuel : Nat} {focus : RBNode} {e1 : PathElem}
    {rest : Path} (hb : (plug focus (e1 :: rest)).isRed = false)
    (he : e1.red = false) :
    restoreTree (fuel+1) focus (e1 :: rest) = .ok (plug focus (e1 :: rest)) := by
  cases rest with
  | nil => rw [restoreTree_succ_one, plug_isNil_cons, hb]; simp [he]
  | cons e2 rest2 => rw [restoreTree_succ_two, plug_isNil_cons, hb]; simp [he]

theorem restoreTree_blackChild {fuel : Nat} {focus : RBNode} {e1 : PathElem}
    {rest : Path} (hb : (plug focus (e1 :: rest)).isRed = false)
    (he : e1.red = true) (hfr : focus.isRed = false) :
    restoreTree (fuel+1) focus (e1 :: rest) = .ok (plug focus (e1 :: rest)) := by
  cases rest with
  | nil => rw [restoreTree_succ_one, plug_isNil_cons, hb]; simp [he, hfr]
  | cons e2 rest2 => rw [restoreTree_succ_two, plug_isNil_cons, hb]; simp [he, hfr]

theorem restoreTree_caseII {fuel : Nat} {focus : RBNode} {e1 e2 : PathElem}
    {rest2 : Path} (hb : (plug focus (e1 :: e2 :: rest2)).isRed = false)
    (he : e1.red = true) (hfr : focus.isRed = true) (hu : e2.other.isRed = true) :
    restoreTree (fuel+1) focus (e1 :: e2 :: rest2) =
      restoreTree fuel
        (plugElem (plugElem focus {e1 with red := false})
          {e2 with red := true, other := setRootBlack e2.other}) rest2 := by
  rw [restoreTree_succ_two, plug_isNil_cons, hb]; simp [he, hfr, hu]

theorem restoreTree_caseIIIa {fuel : Nat} {focus : RBNode} {e1 e2 : PathElem}
    {rest2 : Path} (hb : (plug focus (e1 :: e2 :: rest2)).isRed = false)
    (he : e1.red = true) (hfr : focus.isRed = true) (hu : e2.other.isRed = false)
    (h2 : e2.isLeft = true) (h1 : e1.isLeft = false) :
    restoreTree (fuel+1) focus (e1 :: e2 :: rest2) =
      restoreTree fuel (.node e1.red e1.other e1.value e1.cnt focus.leftOf)
        (⟨true, focus.isRed, focus.valueOf, focus.cntOf, focus.rightOf⟩ :: e2 :: rest2) := by
  rw [restoreTree_succ_two, plug_isNil_cons, hb]; simp [he, hfr, hu, h1, h2]

theorem restoreTree_caseIIIb {fuel : Nat} {focus : RBNode} {e1 e2 : PathElem}
    {rest2 : Path} (hb : (plug focus (e1 :: e2 :: rest2)).isRed = false)
    (he : e1.red = true) (hfr : focus.isRed = true) (hu : e2.other.isRed = false)
    (h2 : e2.isLeft = false) (h1 : e1.isLeft = true) :
    restoreTree (fuel+1) focus (e1 :: e2 :: rest2) =
      restoreTree fuel (.node e1.red focus.rightOf e1.value e1.cnt e1.other)
        (⟨false, focus.isRed, focus.valueOf, focus.cntOf, focus.leftOf⟩ :: e2 :: rest2) := by
  rw [restoreTree_succ_two, plug_isNil_cons, hb]; simp [he, hfr, hu, h1, h2]

theorem restoreTree_caseIVa {fuel : Nat} {focus : RBNode} {e1 e2 : PathElem}
    {rest2 : Path} (hb : (plug focus (e1 :: e2 :: rest2)).isRed = false)
    (he : e1.red = true) (hfr : focus.isRed = true) (hu : e2.other.isRed = false)
    (h2 : e2.isLeft = true) (h1 : e1.isLeft = true) :
    restoreTree (fuel+1) focus (e1 :: e2 :: rest2) =
      .ok (plug (.node e2.red focus e1.value e1.cnt
        (.node (!e2.red) e1.other e2.value e2.cnt e2.other)) rest2) := by
  rw [restoreTree_succ_two, plug_isNil_cons, hb]; simp [he, hfr, hu, h1, h2]

theorem restoreTree_caseIVb {fuel : Nat} {focus : RBNode} {e1 e2 : PathElem}
    {rest2 : Path} (hb : (plug focus (e1 :: e2 :: rest2)).isRed = false)
    (he : e1.red = true) (hfr : focus.isRed = true) (hu : e2.other.isRed = false)
    (h2 : e2.isLeft = false) (h1 : e1.isLeft = false) :
    restoreTree (fuel+1) focus (e1 :: e2 :: rest2) =
      .ok (plug (.node e2.red
        (.node (!e2.red) e2.other e2.value e2.cnt e1.other)
        e1.value e1.cnt focus) rest2) := by
  rw [restoreTree_succ_two, plug_isNil_cons, hb]; simp [he, hfr, hu, h1, h2]

/-! ## Correctness of the insert fix-up -/

/-- The insert fix-up, run on an internally balanced focus whose only
possible violation is a red focus under a red parent, succeeds and returns a
balanced tree with the same in-order entries. -/
theorem restoreTree_spec : ∀ (fuel : Nat) (path : Path) (focus : RBNode)
    (cf c : Bool) (n n₀ : Nat),
    path.length + 2 ≤ fuel →
    Bal focus cf n →
    PBal false n₀ path c n →
    (c = cf ∨ (cf = true ∧ c = false)) →
    (path = [] → cf = true) →
    ∃ t' m, restoreTree fuel focus path = .ok t' ∧ Bal t' false m ∧
      inorder t' = inorder (plug focus path) := by
  intro fuel
  induction fuel with
  | zero => intro path focus cf c n n₀ hfuel _ _ _ _; omega
  | succ fuel ih =>
    intro path focus cf c n n₀ hfuel hf hp hcc hroot
    cases path with
    | nil =>
      cases hp
      have hcf : cf = true := hroot rfl
      subst hcf
      cases hf with
      | red ha hb =>
        rename_i a b av ak
        refine ⟨.node false a av ak b, n + 1, ?_, Bal.black ha hb, ?_⟩
        · rw [restoreTree_succ_nil]
          simp [setRootBlack]
        · simp [setRootBlack]
    | cons e1 rest =>
      cases hp with
      | @blackL _ v1 k1 y1 _ c₁ c₂ hy1 hrest =>
        have hb : (plug focus (⟨true, false, v1, k1, y1⟩ :: rest)).isRed = false :=
          PBal.plug_black (PBal.blackL' false _ hy1 hrest) focus
        refine ⟨_, n₀, restoreTree_blackParent hb rfl, ?_, rfl⟩
        have hpe : Bal (plugElem focus ⟨true, false, v1, k1, y1⟩) false (n+1) := by
          simpa [plugElem] using Bal.black hf hy1
        rw [plug_cons]
        exact PBal.fill hrest hpe (Or.inl rfl)
      | @blackR _ v1 k1 y1 _ c₁ c₂ hy1 hrest =>
        have hb : (plug focus (⟨false, false, v1, k1, y1⟩ :: rest)).isRed = false :=
          PBal.plug_black (PBal.blackR' false _ hy1 hrest) focus
        refine ⟨_, n₀, restoreTree_blackParent hb rfl, ?_, rfl⟩
        have hpe : Bal (plugElem focus ⟨false, false, v1, k1, y1⟩) false (n+1) := by
          simpa [plugElem] using Bal.black hy1 hf
        rw [plug_cons]
        exact PBal.fill hrest hpe (Or.inl rfl)
      | @redL _ v1 k1 y1 _ hy1 hrest =>
        have hb : (plug focus (⟨true, true, v1, k1, y1⟩ :: rest)).isRed = false :=
          PBal.plug_black (PBal.redL hy1 hrest) focus
        rcases hcc with hcc | ⟨hcf, _⟩
        · -- no violation: the focus is black, nothing to do
          have hcf : cf = false := hcc.symm
          subst hcf
          have hfr : focus.isRed = false := hf.isRed_eq
          refine ⟨_, n₀, restoreTree_blackChild hb rfl hfr, ?_, rfl⟩
          have hpe : Bal (plugElem focus ⟨true, true, v1, k1, y1⟩) true n := by
            simpa [plugElem] using Bal.red hf hy1
          rw [plug_cons]
          exact PBal.fill hrest hpe (Or.inr rfl)
        · subst hcf
          have hfr : focus.isRed = true := hf.isRed_eq
          cases rest with
          | nil => cases hrest
          | cons e2 rest2 =>
            cases hrest with
            | @blackL _ v2 k2 y2 _ _ c₂ hy2 hrest2 =>
              by_cases hu : y2.isRed = true
              · -- Case II, red uncle
                have hc2 : c₂ = true := by rw [← hy2.isRed_eq]; exact hu
                subst hc2
                cases hy2 with
                | red hu1 hu2 =>
                  rename_i u1 u2 uv uk
                  obtain ⟨t', m, hrun2, hbal, hino⟩ :=
                    ih rest2 (.node true (.node false focus v1 k1 y1) v2 k2
                        (.node false u1 uv uk u2)) true false (n+1) n₀
                      (by simp only [List.length_cons] at hfuel; omega)
                      (Bal.red (Bal.black hf hy1) (Bal.black hu1 hu2)) hrest2
                      (Or.inr ⟨rfl, rfl⟩) (fun _ => rfl)
                  refine ⟨t', m, ?_, hbal, ?_⟩
                  · rw [restoreTree_caseII hb rfl hfr (by simp)]
                    exact hrun2
                  · rw [hino]
                    simp [inorder_plug, plugElem, List.append_assoc]
              · -- black or absent uncle, parent and focus both left: Case IV
                have hc2 : c₂ = false := hy2.black_of_not_red (by simpa using hu)
                subst hc2
                refine ⟨_, n₀, restoreTree_caseIVa hb rfl hfr (by simpa using hu) rfl rfl,
                  ?_, ?_⟩
                · exact PBal.fill hrest2
                    (by simpa using Bal.black hf (Bal.red hy1 hy2)) (Or.inl rfl)
                · simp [inorder_plug, plugElem, List.append_assoc]
            | @blackR _ v2 k2 y2 _ _ c₂ hy2 hrest2 =>
              by_cases hu : y2.isRed = true
              · -- Case II, red uncle (mirror)
                have hc2 : c₂ = true := by rw [← hy2.isRed_eq]; exact hu
                subst hc2
                cases hy2 with
                | red hu1 hu2 =>
                  rename_i u1 u2 uv uk
                  obtain ⟨t', m, hrun2, hbal, hino⟩ :=
                    ih rest2 (.node true (.node false u1 uv uk u2) v2 k2
                        (.node false focus v1 k1 y1)) true false (n+1) n₀
                      (by simp only [List.length_cons] at hfuel; omega)
                      (Bal.red (Bal.black hu1 hu2) (Bal.black hf hy1)) hrest2
                      (Or.inr ⟨rfl, rfl⟩) (fun _ => rfl)
                  refine ⟨t', m, ?_, hbal, ?_⟩
                  · rw [restoreTree_caseII hb rfl hfr (by simp)]
                    exact hrun2
                  · rw [hino]
                    simp [inorder_plug, plugElem, List.append_assoc]
              · -- opposite sides: Case III rotation, then Case IV
                have hc2 : c₂ = false := hy2.black_of_not_red (by simpa using hu)
                subst hc2
                cases hf with
                | red hfl hfr2 =>
                  rename_i fl fr fv fk
                  cases fuel with
                  | zero => simp only [List.length_cons] at hfuel; omega
                  | succ f2 =>
                    have hb2 : (plug (.node true fr v1 k1 y1)
                        ((⟨false, true, fv, fk, fl⟩ : PathElem) ::
                          (⟨false, false, v2, k2, y2⟩ : PathElem) :: rest2)).isRed = false :=
                      PBal.plug_black
                        (PBal.redR hfl (PBal.blackR' true _ hy2 hrest2)) _
                    refine ⟨plug (.node false (.node true y2 v2 k2 fl) fv fk
                        (.node true fr v1 k1 y1)) rest2, n₀, ?_, ?_, ?_⟩
                    · rw [restoreTree_caseIIIb hb rfl hfr (by simpa using hu) rfl rfl]
                      simp only [leftOf_node, rightOf_node, valueOf_node, cntOf_node,
                        isRed_node]
                      rw [restoreTree_caseIVb hb2 rfl rfl (by simpa using hu) rfl rfl]
                      rfl
                    · exact PBal.fill hrest2
                        (Bal.black (Bal.red hy2 hfl) (Bal.red hfr2 hy1)) (Or.inl rfl)
                    · simp [inorder_plug, plugElem, List.append_assoc]
      | @redR _ v1 k1 y1 _ hy1 hrest =>
        have hb : (plug focus (⟨false, true, v1, k1, y1⟩ :: rest)).isRed = false :=
          PBal.plug_black (PBal.redR hy1 hrest) focus
        rcases hcc with hcc | ⟨hcf, _⟩
        · have hcf : cf = false := hcc.symm
          subst hcf
          have hfr : focus.isRed = false := hf.isRed_eq
          refine ⟨_, n₀, restoreTree_blackChild hb rfl hfr, ?_, rfl⟩
          have hpe : Bal (plugElem focus ⟨false, true, v1, k1, y1⟩) true n := by
            simpa [plugElem] using Bal.red hy1 hf
          rw [plug_cons]
          exact PBal.fill hrest hpe (Or.inr rfl)
        · subst hcf
          have hfr : focus.isRed = true := hf.isRed_eq
          cases rest with
          | nil => cases hrest
          | cons e2 rest2 =>
            cases hrest with
            | @blackR _ v2 k2 y2 _ _ c₂ hy2 hrest2 =>
              by_cases hu : y2.isRed = true
              · have hc2 : c₂ = true := by rw [← hy2.isRed_eq]; exact hu
                subst hc2
                cases hy2 with
                | red hu1 hu2 =>
                  rename_i u1 u2 uv uk
                  obtain ⟨t', m, hrun2, hbal, hino⟩ :=
                    ih rest2 (.node true (.node false u1 uv uk u2) v2 k2
                        (.node false y1 v1 k1 focus)) true false (n+1) n₀
                      (by simp only [List.length_cons] at hfuel; omega)
                      (Bal.red (Bal.black hu1 hu2) (Bal.black hy1 hf)) hrest2
                      (Or.inr ⟨rfl, rfl⟩) (fun _ => rfl)
                  refine ⟨t', m, ?_, hbal, ?_⟩
                  · rw [restoreTree_caseII hb rfl hfr (by simp)]
                    exact hrun2
                  · rw [hino]
                    simp [inorder_plug, plugElem, List.append_assoc]
              · -- both right: Case IV directly
                have hc2 : c₂ = false := hy2.black_of_not_red (by simpa using hu)
                subst hc2
                refine ⟨_, n₀, restoreTree_caseIVb hb rfl hfr (by simpa using hu) rfl rfl,
                  ?_, ?_⟩
                · exact PBal.fill hrest2
                    (by simpa using Bal.black (Bal.red hy2 hy1) hf) (Or.inl rfl)
                · simp [inorder_plug, plugElem, List.append_assoc]
            | @blackL _ v2 k2 y2 _ _ c₂ hy2 hrest2 =>
              by_cases hu : y2.isRed = true
              · have hc2 : c₂ = true := by rw [← hy2.isRed_eq]; exact hu
                subst hc2
                cases hy2 with
                | red hu1 hu2 =>
                  rename_i u1 u2 uv uk
                  obtain ⟨t', m, hrun2, hbal, hino⟩ :=
                    ih rest2 (.node true (.node false y1 v1 k1 focus) v2 k2
                        (.node false u1 uv uk u2)) true false (n+1) n₀
                      (by simp only [List.length_cons] at hfuel; omega)
                      (Bal.red (Bal.black hy1 hf) (Bal.black hu1 hu2)) hrest2
                      (Or.inr ⟨rfl, rfl⟩) (fun _ => rfl)
                  refine ⟨t', m, ?_, hbal, ?_⟩
                  · rw [restoreTree_caseII hb rfl hfr (by simp)]
                    exact hrun2
                  · rw [hino]
                    simp [inorder_plug, plugElem, List.append_assoc]
              · -- opposite sides (parent right, grandparent's left): Case III then IV
                have hc2 : c₂ = false := hy2.black_of_not_red (by simpa using hu)
                subst hc2
                cases hf with
                | red hfl hfr2 =>
                  rename_i fl fr fv fk
                  cases fuel with
                  | zero => simp only [List.length_cons] at hfuel; omega
                  | succ f2 =>
                    have hb2 : (plug (.node true y1 v1 k1 fl)
                        ((⟨true, true, fv, fk, fr⟩ : PathElem) ::
                          (⟨true, false, v2, k2, y2⟩ : PathElem) :: rest2)).isRed = false :=
                      PBal.plug_black
                        (PBal.redL hfr2 (PBal.blackL' true _ hy2 hrest2)) _
                    refine ⟨plug (.node false (.node true y1 v1 k1 fl) fv fk
                        (.node true fr v2 k2 y2)) rest2, n₀, ?_, ?_, ?_⟩
                    · rw [restoreTree_caseIIIa hb rfl hfr (by simpa using hu) rfl rfl]
                      simp only [leftOf_node, rightOf_node, valueOf_node, cntOf_node,
                        isRed_node]
                      rw [restoreTree_caseIVa hb2 rfl rfl (by simpa using hu) rfl rfl]
                      rfl
                    · exact PBal.fill hrest2
                        (Bal.black (Bal.red hy1 hfl) (Bal.red hfr2 hy2)) (Or.inl rfl)
                    · simp [inorder_plug, plugElem, List.append_assoc]

/-! ## Ordering lemmas for insertion -/

theorem pairwise_entLT_congr {l l' : List (Int × Nat)}
    (h : l.map Prod.fst = l'.map Prod.fst) :
    List.Pairwise entLT l → List.Pairwise entLT l' := by
  intro hp
  have h1 : List.Pairwise (· < ·) (l.map Prod.fst) :=
    List.pairwise_map.mpr hp
  rw [h] at h1
  have h2 := List.pairwise_map.mp h1
  exact h2

theorem pairwise_insert_middle {A B : List (Int × Nat)} {x : Int} {k : Nat}
    (hpw : List.Pairwise entLT (A ++ B))
    (hA : ∀ a ∈ A, a.1 < x) (hB : ∀ b ∈ B, x < b.1) :
    List.Pairwise entLT (A ++ (x, k) :: B) := by
  rw [List.pairwise_append] at hpw ⊢
  obtain ⟨h1, h2, h3⟩ := hpw
  refine ⟨h1, ?_, ?_⟩
  · rw [List.pairwise_cons]
    exact ⟨fun b hb => hB b hb, h2⟩
  · intro a ha b hb
    rcases List.mem_cons.mp hb with hb | hb
    · subst hb; exact hA a ha
    · exact h3 a ha b hb

theorem fits_bounds : ∀ {p : Path} {x : Int}, Fits p x →
    List.Pairwise entLT (iL p ++ iR p) →
    (∀ a ∈ iL p, a.1 < x) ∧ (∀ b ∈ iR p, x < b.1) := by
  intro p
  induction p with
  | nil => intro x _ _; exact ⟨by simp [iL], by simp [iR]⟩
  | cons e rest ih =>
    intro x hfits hpw
    obtain ⟨hhead, htail⟩ := hfits
    by_cases hL : e.isLeft = true
    · rw [if_pos hL] at hhead
      rw [iL, iR, if_pos hL, if_pos hL] at hpw ⊢
      have hsub : List.Sublist (iL rest ++ iR rest)
          (iL rest ++ (((e.value, e.cnt) :: inorder e.other) ++ iR rest)) :=
        List.Sublist.append_left (List.sublist_append_right _ _) _
      obtain ⟨ihA, ihB⟩ := ih htail (hpw.sublist hsub)
      have hseg : List.Pairwise entLT ((e.value, e.cnt) :: inorder e.other) := by
        have hsub2 : List.Sublist ((e.value, e.cnt) :: inorder e.other)
            (iL rest ++ (((e.value, e.cnt) :: inorder e.other) ++ iR rest)) := by
          have h0 : List.Sublist ((e.value, e.cnt) :: inorder e.other)
              (((e.value, e.cnt) :: inorder e.other) ++ iR rest) :=
            List.sublist_append_left _ _
          exact h0.trans (List.sublist_append_right _ _)
        exact hpw.sublist hsub2
      refine ⟨ihA, ?_⟩
      intro b hb
      rcases List.mem_append.mp hb with hb | hb
      · rcases List.mem_cons.mp hb with hb | hb
        · subst hb; exact hhead
        · have := (List.pairwise_cons.mp hseg).1 b hb
          exact hhead.trans this
      · exact ihB b hb
    · have hL' : e.isLeft = false := by simpa using hL
      rw [hL'] at hhead
      rw [if_neg (by simp : ¬(false = true))] at hhead
      rw [iL, iR, hL'] at hpw ⊢
      rw [if_neg (by simp : ¬(false = true)), if_neg (by simp : ¬(false = true))] at hpw
      rw [if_neg (by simp : ¬(false = true)), if_neg (by simp : ¬(false = true))]
      have hsub : List.Sublist (iL rest ++ iR rest)
          ((iL rest ++ inorder e.other ++ [(e.value, e.cnt)]) ++ iR rest) := by
        have h1 : List.Sublist (iL rest)
            (iL rest ++ inorder e.other ++ [(e.value, e.cnt)]) := by
          have h0 : List.Sublist (iL rest)
              (iL rest ++ (inorder e.other ++ [(e.value, e.cnt)])) :=
            List.sublist_append_left _ _
          simpa [List.append_assoc] using h0
        exact h1.append (List.Sublist.refl _)
      obtain ⟨ihA, ihB⟩ := ih htail (hpw.sublist hsub)
      have hseg : List.Pairwise entLT (inorder e.other ++ [(e.value, e.cnt)]) := by
        have hsub2 : List.Sublist (inorder e.other ++ [(e.value, e.cnt)])
            ((iL rest ++ inorder e.other ++ [(e.value, e.cnt)]) ++ iR rest) := by
          have h1 : List.Sublist (inorder e.other ++ [(e.value, e.cnt)])
              (iL rest ++ (inorder e.other ++ [(e.value, e.cnt)])) :=
            List.sublist_append_right _ _
          have h2 : List.Sublist (iL rest ++ (inorder e.other ++ [(e.value, e.cnt)]))
              ((iL rest ++ inorder e.other ++ [(e.value, e.cnt)]) ++ iR rest) := by
            simpa [List.append_assoc] using
              List.sublist_append_left
                (iL rest ++ inorder e.other ++ [(e.value, e.cnt)]) (iR rest)
          exact h1.trans h2
        exact hpw.sublist hsub2
      refine ⟨?_, ihB⟩
      intro a ha
      rcases List.mem_append.mp ha with ha | ha
      · rcases List.mem_append.mp ha with ha | ha
        · exact ihA a ha
        · have := (List.pairwise_append.mp hseg).2.2 a ha (e.value, e.cnt) (by simp)
          exact this.trans hhead
      · rcases List.mem_singleton.mp ha with ha
        subst ha; exact hhead

theorem cntL_middle (A B : List (Int × Nat)) (x : Int) (k : Nat) (y : Int) :
    cntL (A ++ (x, k) :: B) y = cntL (A ++ B) y + (if x = y then k else 0) := by
  simp only [cntL_append, cntL]
  omega

theorem sumCnt_middle (A B : List (Int × Nat)) (x : Int) (k : Nat) :
    sumCnt (A ++ (x, k) :: B) = sumCnt (A ++ B) + k := by
  simp only [sumCnt_append, sumCnt]
  omega

/-! ## Correctness of insertion -/

theorem recursiveInsert_spec : ∀ (focus : RBNode) (path : Path) (x : Int)
    (cf : Bool) (n n₀ : Nat),
    focus.isNil = false →
    Bal focus cf n →
    PBal false n₀ path cf n →
    List.Pairwise entLT (inorder (plug focus path)) →
    (∀ p ∈ inorder (plug focus path), 1 ≤ p.2) →
    Fits path x →
    ∃ t' m, recursiveInsert x focus path = .ok t' ∧ Bal t' false m ∧
      (∀ y, cntL (inorder t') y =
        cntL (inorder (plug focus path)) y + (if x = y then 1 else 0)) ∧
      List.Pairwise entLT (inorder t') ∧
      (∀ p ∈ inorder t', 1 ≤ p.2) ∧
      sumCnt (inorder t') = sumCnt (inorder (plug focus path)) + 1 := by
  intro focus
  induction focus with
  | nil => intro path x cf n n₀ hnil; simp at hnil
  | node c l v k r ihl ihr =>
    intro path x cf n n₀ _ hf hp hpw hpos hfits
    by_cases hxv : x = v
    · -- duplicate insert: only the count is bumped
      subst hxv
      refine ⟨plug (.node c l x (k+1) r) path, n₀, ?_, ?_, ?_, ?_, ?_, ?_⟩
      · rw [recursiveInsert]; simp
      · exact PBal.fill hp (hf.cnt_irrel (k+1)) (Or.inr rfl)
      · intro y
        simp only [inorder_plug, inorder_node, cntL_append, cntL]
        by_cases hvy : x = y <;> simp [hvy] <;> omega
      · exact pairwise_entLT_congr (by simp [inorder_plug]) hpw
      · intro p hp
        by_cases hpx : p = (x, k+1)
        · subst hpx; exact Nat.le_add_left 1 k
        · apply hpos p
          rw [inorder_plug, inorder_node] at hp ⊢
          simp only [List.mem_append, List.mem_cons] at hp ⊢
          tauto
      · simp only [inorder_plug, inorder_node, sumCnt_append, sumCnt]
        omega
    · by_cases hlt : x < v
      · cases l with
        | nil =>
          -- new red leaf on the left, then the fix-up
          have hstep : recursiveInsert x (RBNode.node c .nil v k r) path =
              restoreTree (path.length + 3) (.node true .nil x 1 .nil)
                (⟨true, c, v, k, r⟩ :: path) := by
            rw [recursiveInsert]; simp [hxv, hlt]
          cases hf with
          | red ha hb2 =>
            cases ha
            obtain ⟨t', m, hrun, hbal, hino⟩ :=
              restoreTree_spec (path.length + 3) (⟨true, true, v, k, r⟩ :: path)
                (.node true .nil x 1 .nil) true false 1 n₀
                (by simp only [List.length_cons]; omega)
                (Bal.red Bal.nil Bal.nil) (PBal.redL hb2 hp)
                (Or.inr ⟨rfl, rfl⟩) (fun h => by simp at h)
            have horig : inorder (plug (RBNode.node true .nil v k r) path) =
                iL (⟨true, true, v, k, r⟩ :: path) ++
                  iR (⟨true, true, v, k, r⟩ :: path) := by
              rw [show plug (RBNode.node true RBNode.nil v k r) path =
                  plug RBNode.nil (⟨true, true, v, k, r⟩ :: path) from rfl,
                inorder_plug]
              simp
            have hnew : inorder t' =
                iL (⟨true, true, v, k, r⟩ :: path) ++ (x, 1) ::
                  iR (⟨true, true, v, k, r⟩ :: path) := by
              rw [hino, inorder_plug]; simp
            have hpw2 : List.Pairwise entLT
                (iL (⟨true, true, v, k, r⟩ :: path) ++
                  iR (⟨true, true, v, k, r⟩ :: path)) := by
              rw [← horig]; exact hpw
            have hbd := fits_bounds (p := ⟨true, true, v, k, r⟩ :: path)
              ⟨hlt, hfits⟩ hpw2
            refine ⟨t', m, by rw [hstep]; exact hrun, hbal, ?_, ?_, ?_, ?_⟩
            · intro y
              rw [hnew, horig, cntL_middle]
            · rw [hnew]
              exact pairwise_insert_middle hpw2 hbd.1 hbd.2
            · intro p hp
              rw [hnew] at hp
              rcases List.mem_append.mp hp with h | h
              · exact hpos p (by rw [horig]; exact List.mem_append_left _ h)
              · rcases List.mem_cons.mp h with h | h
                · subst h; exact le_refl 1
                · exact hpos p (by rw [horig]; exact List.mem_append_right _ h)
            · rw [hnew, horig, sumCnt_middle]
          | black ha hb2 =>
            cases ha
            obtain ⟨t', m, hrun, hbal, hino⟩ :=
              restoreTree_spec (path.length + 3) (⟨true, false, v, k, r⟩ :: path)
                (.node true .nil x 1 .nil) true true 1 n₀
                (by simp only [List.length_cons]; omega)
                (Bal.red Bal.nil Bal.nil) (PBal.blackL' true _ hb2 hp)
                (Or.inl rfl) (fun h => by simp at h)
            have horig : inorder (plug (RBNode.node false .nil v k r) path) =
                iL (⟨true, false, v, k, r⟩ :: path) ++
                  iR (⟨true, false, v, k, r⟩ :: path) := by
              rw [show plug (RBNode.node false RBNode.nil v k r) path =
                  plug RBNode.nil (⟨true, false, v, k, r⟩ :: path) from rfl,
                inorder_plug]
              simp
            have hnew : inorder t' =
                iL (⟨true, false, v, k, r⟩ :: path) ++ (x, 1) ::
                  iR (⟨true, false, v, k, r⟩ :: path) := by
              rw [hino, inorder_plug]; simp
            have hpw2 : List.Pairwise entLT
                (iL (⟨true, false, v, k, r⟩ :: path) ++
                  iR (⟨true, false, v, k, r⟩ :: path)) := by
              rw [← horig]; exact hpw
            have hbd := fits_bounds (p := ⟨true, false, v, k, r⟩ :: path)
              ⟨hlt, hfits⟩ hpw2
            refine ⟨t', m, by rw [hstep]; exact hrun, hbal, ?_, ?_, ?_, ?_⟩
            · intro y
              rw [hnew, horig, cntL_middle]
            · rw [hnew]
              exact pairwise_insert_middle hpw2 hbd.1 hbd.2
            · intro p hp
              rw [hnew] at hp
              rcases List.mem_append.mp hp with h | h
              · exact hpos p (by rw [horig]; exact List.mem_append_left _ h)
              · rcases List.mem_cons.mp h with h | h
                · subst h; exact le_refl 1
                · exact hpos p (by rw [horig]; exact List.mem_append_right _ h)
            · rw [hnew, horig, sumCnt_middle]
        | node lc ll lv lk lr =>
          have hstep : recursiveInsert x (RBNode.node c (.node lc ll lv lk lr) v k r)
              path = recursiveInsert x (.node lc ll lv lk lr)
                (⟨true, c, v, k, r⟩ :: path) := by
            rw [recursiveInsert]; simp [hxv, hlt]
          cases hf with
          | red ha hb2 =>
            obtain ⟨t', m, hrun, hbal, hcnt, hpw', hpos', hsum⟩ :=
              ihl (⟨true, true, v, k, r⟩ :: path) x false n n₀ (by simp) ha
                (PBal.redL hb2 hp) hpw hpos ⟨hlt, hfits⟩
            exact ⟨t', m, by rw [hstep]; exact hrun, hbal, hcnt, hpw', hpos', hsum⟩
          | black ha hb2 =>
            obtain ⟨t', m, hrun, hbal, hcnt, hpw', hpos', hsum⟩ :=
              ihl (⟨true, false, v, k, r⟩ :: path) x _ _ n₀ (by simp) ha
                (PBal.blackL hb2 hp) hpw hpos ⟨hlt, hfits⟩
            exact ⟨t', m, by rw [hstep]; exact hrun, hbal, hcnt, hpw', hpos', hsum⟩
      · have hgt : v < x := by omega
        cases r with
        | nil =>
          have hstep : recursiveInsert x (RBNode.node c l v k .nil) path =
              restoreTree (path.length + 3) (.node true .nil x 1 .nil)
                (⟨false, c, v, k, l⟩ :: path) := by
            rw [recursiveInsert]; simp [hxv, hlt]
          cases hf with
          | red ha hb2 =>
            cases hb2
            obtain ⟨t', m, hrun, hbal, hino⟩ :=
              restoreTree_spec (path.length + 3) (⟨false, true, v, k, l⟩ :: path)
                (.node true .nil x 1 .nil) true false 1 n₀
                (by simp only [List.length_cons]; omega)
                (Bal.red Bal.nil Bal.nil) (PBal.redR ha hp)
                (Or.inr ⟨rfl, rfl⟩) (fun h => by simp at h)
            have horig : inorder (plug (RBNode.node true l v k .nil) path) =
                iL (⟨false, true, v, k, l⟩ :: path) ++
                  iR (⟨false, true, v, k, l⟩ :: path) := by
              rw [show plug (RBNode.node true l v k RBNode.nil) path =
                  plug RBNode.nil (⟨false, true, v, k, l⟩ :: path) from rfl,
                inorder_plug]
              simp
            have hnew : inorder t' =
                iL (⟨false, true, v, k, l⟩ :: path) ++ (x, 1) ::
                  iR (⟨false, true, v, k, l⟩ :: path) := by
              rw [hino, inorder_plug]; simp
            have hpw2 : List.Pairwise entLT
                (iL (⟨false, true, v, k, l⟩ :: path) ++
                  iR (⟨false, true, v, k, l⟩ :: path)) := by
              rw [← horig]; exact hpw
            have hbd := fits_bounds (p := ⟨false, true, v, k, l⟩ :: path)
              ⟨hgt, hfits⟩ hpw2
            refine ⟨t', m, by rw [hstep]; exact hrun, hbal, ?_, ?_, ?_, ?_⟩
            · intro y
              rw [hnew, horig, cntL_middle]
            · rw [hnew]
              exact pairwise_insert_middle hpw2 hbd.1 hbd.2
            · intro p hp
              rw [hnew] at hp
              rcases List.mem_append.mp hp with h | h
              · exact hpos p (by rw [horig]; exact List.mem_append_left _ h)
              · rcases List.mem_cons.mp h with h | h
                · subst h; exact le_refl 1
                · exact hpos p (by rw [horig]; exact List.mem_append_right _ h)
            · rw [hnew, horig, sumCnt_middle]
          | black ha hb2 =>
            cases hb2
            obtain ⟨t', m, hrun, hbal, hino⟩ :=
              restoreTree_spec (path.length + 3) (⟨false, false, v, k, l⟩ :: path)
                (.node true .nil x 1 .nil) true true 1 n₀
                (by simp only [List.length_cons]; omega)
                (Bal.red Bal.nil Bal.nil) (PBal.blackR' true _ ha hp)
                (Or.inl rfl) (fun h => by simp at h)
            have horig : inorder (plug (RBNode.node false l v k .nil) path) =
                iL (⟨false, false, v, k, l⟩ :: path) ++
                  iR (⟨false, false, v, k, l⟩ :: path) := by
              rw [show plug (RBNode.node false l v k RBNode.nil) path =
                  plug RBNode.nil (⟨false, false, v, k, l⟩ :: path) from rfl,
                inorder_plug]
              simp
            have hnew : inorder t' =
                iL (⟨false, false, v, k, l⟩ :: path) ++ (x, 1) ::
                  iR (⟨false, false, v, k, l⟩ :: path) := by
              rw [hino, inorder_plug]; simp
            have hpw2 : List.Pairwise entLT
                (iL (⟨false, false, v, k, l⟩ :: path) ++
                  iR (⟨false, false, v, k, l⟩ :: path)) := by
              rw [← horig]; exact hpw
            have hbd := fits_bounds (p := ⟨false, false, v, k, l⟩ :: path)
              ⟨hgt, hfits⟩ hpw2
            refine ⟨t', m, by rw [hstep]; exact hrun, hbal, ?_, ?_, ?_, ?_⟩
            · intro y
              rw [hnew, horig, cntL_middle]
            · rw [hnew]
              exact pairwise_insert_middle hpw2 hbd.1 hbd.2
            · intro p hp
              rw [hnew] at hp
              rcases List.mem_append.mp hp with h | h
              · exact hpos p (by rw [horig]; exact List.mem_append_left _ h)
              · rcases List.mem_cons.mp h with h | h
                · subst h; exact le_refl 1
                · exact hpos p (by rw [horig]; exact List.mem_append_right _ h)
            · rw [hnew, horig, sumCnt_middle]
        | node rc rl rv rk rr =>
          have hstep : recursiveInsert x (RBNode.node c l v k (.node rc rl rv rk rr))
              path = recursiveInsert x (.node rc rl rv rk rr)
                (⟨false, c, v, k, l⟩ :: path) := by
            rw [recursiveInsert]; simp [hxv, hlt]
          cases hf with
          | red ha hb2 =>
            obtain ⟨t', m, hrun, hbal, hcnt, hpw', hpos', hsum⟩ :=
              ihr (⟨false, true, v, k, l⟩ :: path) x false n n₀ (by simp) hb2
                (PBal.redR ha hp) hpw hpos ⟨hgt, hfits⟩
            exact ⟨t', m, by rw [hstep]; exact hrun, hbal, hcnt, hpw', hpos', hsum⟩
          | black ha hb2 =>
            obtain ⟨t', m, hrun, hbal, hcnt, hpw', hpos', hsum⟩ :=
              ihr (⟨false, false, v, k, l⟩ :: path) x _ _ n₀ (by simp) hb2
                (PBal.blackR ha hp) hpw hpos ⟨hgt, hfits⟩
            exact ⟨t', m, by rw [hstep]; exact hrun, hbal, hcnt, hpw', hpos', hsum⟩


/-! ## Tree-level insertion and the invariant -/

/-- The freshly constructed tree is well-formed. -/
theorem Good_emptyTree : Good emptyTree :=
  ⟨⟨1, Bal.nil⟩, by simp [emptyTree], by simp [emptyTree],
    by simp [emptyTree, sumCnt]⟩

/-- A well-formed tree passes all five checks of `verifyProperties`. -/
theorem Good.verify {t : Tree} (hg : Good t) : verifyProperties t = true := by
  obtain ⟨⟨n, hbal⟩, _, _, hne⟩ := hg
  have h1 := hbal.verifyRedChild
  have h2 := hbal.verifyBlackHeight
  have h3 := hbal.blackRoot
  have h4 := parentChildMatchAt_encode t.root
  simp [verifyProperties, parentChildMatch, verifyCount, h1, h2, h3, h4,
    countSum_eq_sumCnt, hne]

/-- `insert` on a well-formed tree succeeds, preserves well-formedness, bumps
the inserted value's multiplicity, leaves all other multiplicities unchanged,
and increments `numElems`. -/
theorem insert_spec {t : Tree} (hg : Good t) (x : Int) :
    ∃ t', insert t x = .ok t' ∧ Good t' ∧
      t'.numElems = t.numElems + 1 ∧
      (∀ y, cntL (inorder t'.root) y =
        cntL (inorder t.root) y + (if x = y then 1 else 0)) := by
  obtain ⟨⟨n, hbal⟩, hpw, hpos, hne⟩ := hg
  cases htr : t.root with
  | nil =>
    rw [htr] at hne
    refine ⟨⟨.node false .nil x 1 .nil, t.numElems + 1⟩, ?_, ?_, rfl, ?_⟩
    · simp only [insert, htr]
    · refine ⟨⟨2, Bal.black Bal.nil Bal.nil⟩, by simp, by simp, ?_⟩
      simp only [sumCnt] at hne ⊢
      simp at hne
      simp [hne, sumCnt]
    · intro y
      simp [cntL]
  | node c l v k r =>
    rw [htr] at hbal hpw hpos hne
    have hc : c = false := by have := hbal.isRed_eq; simpa using this
    subst hc
    obtain ⟨t', m, hrun, hbal', hcnt, hpw', hpos', hsum⟩ :=
      recursiveInsert_spec (.node false l v k r) [] x false n n (by simp)
        hbal PBal.root hpw hpos trivial
    rw [plug_nil] at hcnt hsum
    refine ⟨⟨t', t.numElems + 1⟩, ?_, ?_, rfl, ?_⟩
    · simp only [insert, htr, hrun]
    · refine ⟨⟨m, hbal'⟩, hpw', hpos', ?_⟩
      show t.numElems + 1 = ((sumCnt (inorder t') : Int))
      rw [hsum]
      push_cast
      omega
    · intro y
      exact hcnt y

/-- When the value is already present, `recursiveInsert` only bumps the found
node's `count`: the rebuilt tree is the original with `count+1` at that node,
and no fix-up runs. -/
theorem recursiveInsert_found : ∀ (focus : RBNode) (path p : Path) (x : Int)
    (c : Bool) (l : RBNode) (k : Nat) (r : RBNode),
    findZ focus x path = some (p, .node c l x k r) →
    recursiveInsert x focus path = .ok (plug (.node c l x (k+1) r) p) := by
  intro focus
  induction focus with
  | nil => intro path p x c l k r h; simp [findZ] at h
  | node fc fl fv fk fr ihl ihr =>
    intro path p x c l k r h
    rw [findZ] at h
    by_cases hvx : fv = x
    · rw [if_pos hvx] at h
      simp only [Option.some.injEq, Prod.mk.injEq, RBNode.node.injEq] at h
      obtain ⟨hp, hc, hl, hv, hk, hr⟩ := h
      subst hp; subst hc; subst hl; subst hk; subst hr; subst hvx
      rw [recursiveInsert]; simp
    · rw [if_neg hvx] at h
      by_cases hlt : x < fv
      · rw [if_pos hlt] at h
        have hnil : fl.isNil = false := by
          cases fl with
          | nil => rw [findZ] at h; exact absurd h (by simp)
          | node _ _ _ _ _ => rfl
        rw [recursiveInsert, if_neg (show ¬ x = fv from fun he => hvx he.symm),
          if_pos hlt, if_neg (show ¬ fl.isNil = true by simp [hnil])]
        exact ihl _ _ _ _ _ _ _ h
      · rw [if_neg hlt] at h
        have hnil : fr.isNil = false := by
          cases fr with
          | nil => rw [findZ] at h; exact absurd h (by simp)
          | node _ _ _ _ _ => rfl
        rw [recursiveInsert, if_neg (show ¬ x = fv from fun he => hvx he.symm),
          if_neg hlt, if_neg (show ¬ fr.isNil = true by simp [hnil])]
        exact ihr _ _ _ _ _ _ _ h

/-- Tree-level version: inserting a value that is already present changes the
found node's `count` field and nothing else — the rebuilt root is the plug of
the same context with the same node, count incremented. -/
theorem insert_found {t : Tree} {x : Int} {p : Path} {c : Bool} {l : RBNode}
    {k : Nat} {r : RBNode}
    (h : findZ t.root x [] = some (p, .node c l x k r)) :
    t.root = plug (.node c l x k r) p ∧
    insert t x = .ok ⟨plug (.node c l x (k+1) r) p, t.numElems + 1⟩ := by
  have hshape : plug (.node c l x k r) p = plug t.root [] := findZ_plug h
  rw [plug_nil] at hshape
  refine ⟨hshape.symm, ?_⟩
  cases htr : t.root with
  | nil => rw [htr] at h; simp [findZ] at h
  | node c0 l0 v0 k0 r0 =>
    rw [htr] at h
    simp only [insert, htr, recursiveInsert_found _ _ _ _ _ _ _ _ h]

/-! ## Count characterizations, copying, one-child shapes -/

/-- The tree-level `count` is the node-level one, cast to `int`. -/
theorem count_eq_countVal (t : Tree) (x : Int) :
    t.count x = (countVal t.root x : Int) := by
  rw [Tree.count, countVal]
  cases findNode t.root x <;> simp

/-- With positive multiplicities, `count` is zero exactly on a search miss. -/
theorem countVal_zero_iff {t : RBNode} (hpos : ∀ p ∈ inorder t, 1 ≤ p.2)
    (x : Int) : countVal t x = 0 ↔ findNode t x = none := by
  constructor
  · intro h
    cases hf : findNode t x with
    | none => rfl
    | some s =>
      obtain ⟨c, l, k, r, hs, hmem⟩ := findNode_mem hf
      have hk := hpos _ hmem
      rw [countVal, hf, hs] at h
      simp [RBNode.cntOf] at h
      omega
  · intro h; rw [countVal, h]

/-- `copyTree` rebuilds the same tree value (fresh nodes, same contents). -/
theorem copyTree_eq : ∀ t : RBNode, copyTree t = t := by
  intro t
  induction t with
  | nil => rfl
  | node c l v k r ihl ihr => rw [copyTree, ihl, ihr]

/-- A balanced tree is balanced at every subtree. -/
theorem Bal.subtree : ∀ {s t : RBNode}, Subtree s t → ∀ {c : Bool} {n : Nat},
    Bal t c n → ∃ c' n', Bal s c' n' := by
  intro s t hs
  induction hs with
  | refl => intro c n h; exact ⟨c, n, h⟩
  | left _ ih =>
    intro c n h
    cases h with
    | red hl _ => exact ih hl
    | black hl _ => exact ih hl
  | right _ ih =>
    intro c n h
    cases h with
    | red _ hr => exact ih hr
    | black _ hr => exact ih hr

/-- A balanced subtree of black height 1 is a leaf or a red node with leaf
children. -/
theorem Bal.height_one : ∀ {t : RBNode} {c : Bool}, Bal t c 1 →
    t = .nil ∨ ∃ a v k b, c = true ∧ t = .node true a v k b ∧
      Bal a false 1 ∧ Bal b false 1 := by
  intro t c h
  cases h with
  | nil => exact Or.inl rfl
  | red hl hr => exact Or.inr ⟨_, _, _, _, rfl, rfl, hl, hr⟩
  | black hl hr => exact absurd hl.one_le (by omega)

/-- In a balanced tree, a node with exactly one present child is black and
that child is red (with leaf children). -/
theorem oneChild_shape {s : RBNode} {c' : Bool} {n' : Nat}
    (hb : Bal s c' n') (h1 : numNullChildren s = 1) :
    ∃ cl cv ck cr v k,
      (s = .node false (.node true cl cv ck cr) v k .nil ∨
       s = .node false .nil v k (.node true cl cv ck cr)) ∧
      Bal cl false 1 ∧ Bal cr false 1 := by
  cases hb with
  | nil => simp [numNullChildren] at h1
  | @red l r v k n hl hr =>
    rw [numNullChildren] at h1
    by_cases hln : l.isNil = true
    · have : l = .nil := by cases l with | nil => rfl | node _ _ _ _ _ => simp [RBNode.isNil] at hln
      subst this
      cases hl
      rcases hr.height_one with h | ⟨a, v2, k2, b, hc, _, _, _⟩
      · subst h; simp [RBNode.isNil] at h1
      · simp at hc
    · by_cases hrn : r.isNil = true
      · have : r = .nil := by cases r with | nil => rfl | node _ _ _ _ _ => simp [RBNode.isNil] at hrn
        subst this
        cases hr
        rcases hl.height_one with h | ⟨a, v2, k2, b, hc, _, _, _⟩
        · subst h; simp [RBNode.isNil] at h1
        · simp at hc
      · simp [hln, hrn] at h1
  | @black l r v k n c₁ c₂ hl hr =>
    rw [numNullChildren] at h1
    by_cases hln : l.isNil = true
    · have : l = .nil := by cases l with | nil => rfl | node _ _ _ _ _ => simp [RBNode.isNil] at hln
      subst this
      cases hl
      rcases hr.height_one with h | ⟨a, v2, k2, b, _, hsh, ha, hb2⟩
      · subst h; simp [RBNode.isNil] at h1
      · subst hsh
        exact ⟨a, v2, k2, b, v, k, Or.inr rfl, ha, hb2⟩
    · by_cases hrn : r.isNil = true
      · have : r = .nil := by cases r with | nil => rfl | node _ _ _ _ _ => simp [RBNode.isNil] at hrn
        subst this
        cases hr
        rcases hl.height_one with h | ⟨a, v2, k2, b, _, hsh, ha, hb2⟩
        · subst h; simp [RBNode.isNil] at h1
        · subst hsh
          exact ⟨a, v2, k2, b, v, k, Or.inl rfl, ha, hb2⟩
      · simp [hln, hrn] at h1

/-! ## Delete fix-up: sibling selection and stepping -/

theorem pickSibling_some_true (l r : RBNode) :
    pickSibling l r (some true) = .ok (r, false) := rfl

theorem pickSibling_some_false (l r : RBNode) :
    pickSibling l r (some false) = .ok (l, true) := rfl

theorem pickSibling_none_left (l r : RBNode) (hl : l.isNil = true)
    (hr : r.isNil = false) : pickSibling l r none = .ok (r, false) := by
  simp [pickSibling, hl, hr]

theorem pickSibling_none_right (l r : RBNode) (hl : l.isNil = false)
    (hr : r.isNil = true) : pickSibling l r none = .ok (l, true) := by
  simp [pickSibling, hl, hr]

theorem dRT_caseIII_right (fuel : Nat) (path : Path) (pl sl sr : RBNode)
    (pv sv : Int) (pk sk : Nat) (ns : Option Bool)
    (hns : pickSibling pl (.node false sl sv sk sr) ns =
      .ok (.node false sl sv sk sr, false))
    (hsl : sl.isRed = false) (hsr : sr.isRed = false) :
    deleteRestoreTree (fuel+1) path (.node true pl pv pk (.node false sl sv sk sr)) ns =
      .ok (plug (.node false pl pv pk (.node true sl sv sk sr)) path) := by
  rw [deleteRestoreTree, hns]
  simp [Except.bind, hsl, hsr]

theorem Bal.isNil_false {t : RBNode} {c : Bool} {n : Nat} (h : Bal t c n)
    (hn : 2 ≤ n) : t.isNil = false := by
  cases t with
  | nil => cases h; omega
  | node _ _ _ _ _ => rfl

theorem setRootBlack_bal {t : RBNode} {n : Nat} (h : Bal t true n) :
    Bal (setRootBlack t) false (n+1) := by
  cases h with
  | red hl hr => exact Bal.black hl hr

theorem inorder_plug_congr {t t' : RBNode} (p : Path)
    (h : inorder t = inorder t') :
    inorder (plug t p) = inorder (plug t' p) := by
  simp [inorder_plug, h]

theorem dRT_caseI_right (fuel : Nat) (path : Path) (pc : Bool)
    (pl sl sr : RBNode) (pv sv : Int) (pk sk : Nat) (ns : Option Bool)
    (hns : pickSibling pl (.node true sl sv sk sr) ns =
      .ok (.node true sl sv sk sr, false)) :
    deleteRestoreTree (fuel+1) path (.node pc pl pv pk (.node true sl sv sk sr)) ns =
      deleteRestoreTree fuel (⟨true, pc, sv, sk, sr⟩ :: path)
        (.node (!pc) pl pv pk sl) ns := by
  rw [deleteRestoreTree, hns]
  simp [Except.bind]

theorem dRT_caseI_left (fuel : Nat) (path : Path) (pc : Bool)
    (pr sl sr : RBNode) (pv sv : Int) (pk sk : Nat) (ns : Option Bool)
    (hns : pickSibling (.node true sl sv sk sr) pr ns =
      .ok (.node true sl sv sk sr, true)) :
    deleteRestoreTree (fuel+1) path (.node pc (.node true sl sv sk sr) pv pk pr) ns =
      deleteRestoreTree fuel (⟨false, pc, sv, sk, sl⟩ :: path)
        (.node (!pc) sr pv pk pr) ns := by
  rw [deleteRestoreTree, hns]
  simp [Except.bind]

theorem dRT_caseII_right_nil (fuel : Nat) (pl sl sr : RBNode) (pv sv : Int)
    (pk sk : Nat) (ns : Option Bool)
    (hns : pickSibling pl (.node false sl sv sk sr) ns =
      .ok (.node false sl sv sk sr, false))
    (hsl : sl.isRed = false) (hsr : sr.isRed = false) :
    deleteRestoreTree (fuel+1) [] (.node false pl pv pk (.node false sl sv sk sr)) ns =
      .ok (.node false pl pv pk (.node true sl sv sk sr)) := by
  rw [deleteRestoreTree, hns]
  simp [Except.bind, hsl, hsr]

theorem dRT_caseII_right_cons (fuel : Nat) (e : PathElem) (rest : Path)
    (pl sl sr : RBNode) (pv sv : Int) (pk sk : Nat) (ns : Option Bool)
    (hns : pickSibling pl (.node false sl sv sk sr) ns =
      .ok (.node false sl sv sk sr, false))
    (hsl : sl.isRed = false) (hsr : sr.isRed = false) :
    deleteRestoreTree (fuel+1) (e :: rest)
        (.node false pl pv pk (.node false sl sv sk sr)) ns =
      deleteRestoreTree fuel rest
        (plugElem (.node false pl pv pk (.node true sl sv sk sr)) e)
        (some e.isLeft) := by
  rw [deleteRestoreTree, hns]
  simp [Except.bind, hsl, hsr]

theorem dRT_caseII_left_nil (fuel : Nat) (pr sl sr : RBNode) (pv sv : Int)
    (pk sk : Nat) (ns : Option Bool)
    (hns : pickSibling (.node false sl sv sk sr) pr ns =
      .ok (.node false sl sv sk sr, true))
    (hsl : sl.isRed = false) (hsr : sr.isRed = false) :
    deleteRestoreTree (fuel+1) [] (.node false (.node false sl sv sk sr) pv pk pr) ns =
      .ok (.node false (.node true sl sv sk sr) pv pk pr) := by
  rw [deleteRestoreTree, hns]
  simp [Except.bind, hsl, hsr]

theorem dRT_caseII_left_cons (fuel : Nat) (e : PathElem) (rest : Path)
    (pr sl sr : RBNode) (pv sv : Int) (pk sk : Nat) (ns : Option Bool)
    (hns : pickSibling (.node false sl sv sk sr) pr ns =
      .ok (.node false sl sv sk sr, true))
    (hsl : sl.isRed = false) (hsr : sr.isRed = false) :
    deleteRestoreTree (fuel+1) (e :: rest)
        (.node false (.node false sl sv sk sr) pv pk pr) ns =
      deleteRestoreTree fuel rest
        (plugElem (.node false (.node true sl sv sk sr) pv pk pr) e)
        (some e.isLeft) := by
  rw [deleteRestoreTree, hns]
  simp [Except.bind, hsl, hsr]

theorem dRT_caseIII_left (fuel : Nat) (path : Path) (pr sl sr : RBNode)
    (pv sv : Int) (pk sk : Nat) (ns : Option Bool)
    (hns : pickSibling (.node false sl sv sk sr) pr ns =
      .ok (.node false sl sv sk sr, true))
    (hsl : sl.isRed = false) (hsr : sr.isRed = false) :
    deleteRestoreTree (fuel+1) path (.node true (.node false sl sv sk sr) pv pk pr) ns =
      .ok (plug (.node false (.node true sl sv sk sr) pv pk pr) path) := by
  rw [deleteRestoreTree, hns]
  simp [Except.bind, hsl, hsr]

theorem dRT_caseV_right (fuel : Nat) (path : Path) (pc : Bool)
    (pl sl sr : RBNode) (pv sv : Int) (pk sk : Nat) (ns : Option Bool)
    (hns : pickSibling pl (.node false sl sv sk sr) ns =
      .ok (.node false sl sv sk sr, false))
    (hsr : sr.isRed = true) :
    deleteRestoreTree (fuel+1) path (.node pc pl pv pk (.node false sl sv sk sr)) ns =
      .ok (plug (.node pc (.node false pl pv pk sl) sv sk (setRootBlack sr)) path) := by
  rw [deleteRestoreTree, hns]
  simp [Except.bind, hsr]

theorem dRT_caseV_left (fuel : Nat) (path : Path) (pc : Bool)
    (pr sl sr : RBNode) (pv sv : Int) (pk sk : Nat) (ns : Option Bool)
    (hns : pickSibling (.node false sl sv sk sr) pr ns =
      .ok (.node false sl sv sk sr, true))
    (hsl : sl.isRed = true) :
    deleteRestoreTree (fuel+1) path (.node pc (.node false sl sv sk sr) pv pk pr) ns =
      .ok (plug (.node pc (setRootBlack sl) sv sk (.node false sr pv pk pr)) path) := by
  rw [deleteRestoreTree, hns]
  simp [Except.bind, hsl]

theorem dRT_caseIV_right (fuel : Nat) (path : Path) (pc : Bool)
    (pl sl sr : RBNode) (pv sv : Int) (pk sk : Nat) (ns : Option Bool)
    (hns : pickSibling pl (.node false sl sv sk sr) ns =
      .ok (.node false sl sv sk sr, false))
    (hsl : sl.isRed = true) (hsln : sl.isNil = false) (hsr : sr.isRed = false) :
    deleteRestoreTree (fuel+1) path (.node pc pl pv pk (.node false sl sv sk sr)) ns =
      deleteRestoreTree fuel path
        (.node pc pl pv pk (.node false sl.leftOf sl.valueOf sl.cntOf
          (.node true sl.rightOf sv sk sr))) ns := by
  rw [deleteRestoreTree, hns]
  simp [Except.bind, hsl, hsln, hsr]

theorem dRT_caseIV_left (fuel : Nat) (path : Path) (pc : Bool)
    (pr sl sr : RBNode) (pv sv : Int) (pk sk : Nat) (ns : Option Bool)
    (hns : pickSibling (.node false sl sv sk sr) pr ns =
      .ok (.node false sl sv sk sr, true))
    (hsr : sr.isRed = true) (hsrn : sr.isNil = false) (hsl : sl.isRed = false) :
    deleteRestoreTree (fuel+1) path (.node pc (.node false sl sv sk sr) pv pk pr) ns =
      deleteRestoreTree fuel path
        (.node pc (.node false (.node true sl sv sk sr.leftOf)
          sr.valueOf sr.cntOf sr.rightOf) pv pk pr) ns := by
  rw [deleteRestoreTree, hns]
  simp [Except.bind, hsl, hsrn, hsr]

theorem pickSibling_right_of (pl s : RBNode) (ns : Option Bool)
    (hs : s.isNil = false) (h : ns = some true ∨ (ns = none ∧ pl = .nil)) :
    pickSibling pl s ns = .ok (s, false) := by
  rcases h with h | ⟨h, h2⟩
  · subst h; exact pickSibling_some_true _ _
  · subst h; subst h2; exact pickSibling_none_left _ _ rfl hs

theorem pickSibling_left_of (s pr : RBNode) (ns : Option Bool)
    (hs : s.isNil = false) (h : ns = some false ∨ (ns = none ∧ pr = .nil)) :
    pickSibling s pr ns = .ok (s, true) := by
  rcases h with h | ⟨h, h2⟩
  · subst h; exact pickSibling_some_false _ _
  · subst h; subst h2; exact pickSibling_none_right _ _ hs rfl

/-- The delete fix-up at a red anchor parent with a black sibling finishes in
at most two steps (Case III, Case V, or Case IV feeding Case V) and restores
balance, preserving the in-order entries. -/
theorem dRT_red_spec (fuel : Nat) (path : Path) (pl : RBNode) (pv : Int)
    (pk : Nat) (pr : RBNode) (ns : Option Bool) (df : Bool) (m n₀ : Nat)
    (hfuel : 3 ≤ fuel)
    (hns : ns = some df ∨ (ns = none ∧ (if df then pl else pr) = .nil))
    (hd : Bal (if df then pl else pr) false m)
    (hs : Bal (if df then pr else pl) false (m+1))
    (hp : PBal false n₀ path true (m+1)) :
    ∃ t' m', deleteRestoreTree fuel path (.node true pl pv pk pr) ns = .ok t' ∧
      Bal t' false m' ∧
      inorder t' = inorder (plug (.node true pl pv pk pr) path) := by
  obtain ⟨f, rfl⟩ : ∃ f, fuel = f + 2 := ⟨fuel - 2, by omega⟩
  cases df with
  | true =>
    have hd' : Bal pl false m := hd
    have hm1 := hd'.one_le
    cases pr with
    | nil => cases hs; omega
    | node sc2 a sv sk b =>
      have hsc2 : sc2 = false := by simpa using hs.isRed_eq
      subst hsc2
      obtain ⟨ca, cb, ha, hb⟩ : ∃ ca cb, Bal a ca m ∧ Bal b cb m := by
        cases hs with
        | black h1 h2 => exact ⟨_, _, h1, h2⟩
      have hns' : pickSibling pl (.node false a sv sk b) ns =
          .ok (.node false a sv sk b, false) :=
        pickSibling_right_of pl _ ns rfl hns
      by_cases hbr : b.isRed = true
      · -- Case V: red outside nephew
        have hcb : cb = true := hb.isRed_eq.symm.trans hbr
        subst hcb
        refine ⟨_, n₀,
          dRT_caseV_right (f+1) path true pl a b pv sv pk sk ns hns' hbr,
          PBal.fill hp
            (Bal.red (Bal.black hd' ha) (setRootBlack_bal hb)) (Or.inr rfl), ?_⟩
        rw [inorder_plug, inorder_plug]
        simp [List.append_assoc]
      · have hbb : b.isRed = false := by simpa using hbr
        have hcb : cb = false := hb.isRed_eq.symm.trans hbb
        subst hcb
        by_cases har : a.isRed = true
        · -- Case IV then Case V: red inside nephew
          have hca : ca = true := ha.isRed_eq.symm.trans har
          subst hca
          cases a with
          | nil => simp at har
          | node ac a1 aw aj a2 =>
            have hac : ac = true := by simpa using ha.isRed_eq
            subst hac
            obtain ⟨h1, h2⟩ : Bal a1 false m ∧ Bal a2 false m := by
              cases ha with
              | red x y => exact ⟨x, y⟩
            have hns2 : pickSibling pl
                (.node false a1 aw aj (.node true a2 sv sk b)) ns =
                .ok (.node false a1 aw aj (.node true a2 sv sk b), false) :=
              pickSibling_right_of pl _ ns rfl hns
            have hrun : deleteRestoreTree (f+2) path
                (.node true pl pv pk
                  (.node false (.node true a1 aw aj a2) sv sk b)) ns =
                .ok (plug (.node true (.node false pl pv pk a1) aw aj
                  (.node false a2 sv sk b)) path) := by
              rw [dRT_caseIV_right (f+1) path true pl _ b pv sv pk sk ns hns'
                (by simp) rfl hbb]
              simp only [leftOf_node, rightOf_node, valueOf_node, cntOf_node]
              rw [dRT_caseV_right f path true pl a1 (.node true a2 sv sk b)
                pv aw pk aj ns hns2 (by simp)]
              rfl
            refine ⟨_, n₀, hrun,
              PBal.fill hp
                (Bal.red (Bal.black hd' h1) (Bal.black h2 hb)) (Or.inr rfl), ?_⟩
            rw [inorder_plug, inorder_plug]
            simp [List.append_assoc]
        · -- Case III: both nephews black
          have haa : a.isRed = false := by simpa using har
          have hca : ca = false := ha.isRed_eq.symm.trans haa
          subst hca
          refine ⟨_, n₀,
            dRT_caseIII_right (f+1) path pl a b pv sv pk sk ns hns' haa hbb,
            PBal.fill hp (Bal.black hd' (Bal.red ha hb)) (Or.inl rfl), ?_⟩
          rw [inorder_plug, inorder_plug]
          simp
  | false =>
    have hd' : Bal pr false m := hd
    have hm1 := hd'.one_le
    cases pl with
    | nil => cases hs; omega
    | node sc2 a sv sk b =>
      have hsc2 : sc2 = false := by simpa using hs.isRed_eq
      subst hsc2
      obtain ⟨ca, cb, ha, hb⟩ : ∃ ca cb, Bal a ca m ∧ Bal b cb m := by
        cases hs with
        | black h1 h2 => exact ⟨_, _, h1, h2⟩
      have hns' : pickSibling (.node false a sv sk b) pr ns =
          .ok (.node false a sv sk b, true) :=
        pickSibling_left_of _ pr ns rfl hns
      by_cases har : a.isRed = true
      · -- Case V: red outside nephew
        have hca : ca = true := ha.isRed_eq.symm.trans har
        subst hca
        refine ⟨_, n₀,
          dRT_caseV_left (f+1) path true pr a b pv sv pk sk ns hns' har,
          PBal.fill hp
            (Bal.red (setRootBlack_bal ha) (Bal.black hb hd')) (Or.inr rfl), ?_⟩
        rw [inorder_plug, inorder_plug]
        simp [List.append_assoc]
      · have haa : a.isRed = false := by simpa using har
        have hca : ca = false := ha.isRed_eq.symm.trans haa
        subst hca
        by_cases hbr : b.isRed = true
        · -- Case IV then Case V: red inside nephew
          have hcb : cb = true := hb.isRed_eq.symm.trans hbr
          subst hcb
          cases b with
          | nil => simp at hbr
          | node bc b1 bw bj b2 =>
            have hbc : bc = true := by simpa using hb.isRed_eq
            subst hbc
            obtain ⟨h1, h2⟩ : Bal b1 false m ∧ Bal b2 false m := by
              cases hb with
              | red x y => exact ⟨x, y⟩
            have hns2 : pickSibling
                (.node false (.node true a sv sk b1) bw bj b2) pr ns =
                .ok (.node false (.node true a sv sk b1) bw bj b2, true) :=
              pickSibling_left_of _ pr ns rfl hns
            have hrun : deleteRestoreTree (f+2) path
                (.node true (.node false a sv sk (.node true b1 bw bj b2))
                  pv pk pr) ns =
                .ok (plug (.node true (.node false a sv sk b1) bw bj
                  (.node false b2 pv pk pr)) path) := by
              rw [dRT_caseIV_left (f+1) path true pr a _ pv sv pk sk ns hns'
                (by simp) rfl haa]
              simp only [leftOf_node, rightOf_node, valueOf_node, cntOf_node]
              rw [dRT_caseV_left f path true pr (.node true a sv sk b1) b2
                pv bw pk bj ns hns2 (by simp)]
              rfl
            refine ⟨_, n₀, hrun,
              PBal.fill hp
                (Bal.red (Bal.black ha h1) (Bal.black h2 hd')) (Or.inr rfl), ?_⟩
            rw [inorder_plug, inorder_plug]
            simp [List.append_assoc]
        · -- Case III: both nephews black
          have hbb : b.isRed = false := by simpa using hbr
          have hcb : cb = false := hb.isRed_eq.symm.trans hbb
          subst hcb
          refine ⟨_, n₀,
            dRT_caseIII_left (f+1) path pr a b pv sv pk sk ns hns' haa hbb,
            PBal.fill hp (Bal.black (Bal.red ha hb) hd') (Or.inl rfl), ?_⟩
          rw [inorder_plug, inorder_plug]
          simp

/-- Main specification of the delete fix-up: at an anchor parent whose
`df`-side child is one black level short, with a balanced sibling and a
coherent `notSibling` hint, the pass terminates with a balanced tree holding
the same in-order entries. -/
theorem deleteRestoreTree_spec : ∀ (fuel : Nat) (path : Path) (pc : Bool)
    (pl : RBNode) (pv : Int) (pk : Nat) (pr : RBNode) (ns : Option Bool)
    (df : Bool) (cs : Bool) (m n₀ : Nat),
    path.length + 4 ≤ fuel →
    (ns = some df ∨ (ns = none ∧ (if df then pl else pr) = .nil)) →
    Bal (if df then pl else pr) false m →
    Bal (if df then pr else pl) cs (m+1) →
    (pc = true → cs = false) →
    PBal false n₀ path pc (if pc then m+1 else m+2) →
    ∃ t' m', deleteRestoreTree fuel path (.node pc pl pv pk pr) ns = .ok t' ∧
      Bal t' false m' ∧
      inorder t' = inorder (plug (.node pc pl pv pk pr) path) := by
  intro fuel
  induction fuel with
  | zero => intro path pc pl pv pk pr ns df cs m n₀ hfuel _ _ _ _ _; omega
  | succ f ih =>
    intro path pc pl pv pk pr ns df cs m n₀ hfuel hns hd hs hrb hp
    cases pc with
    | true =>
      have hcs : cs = false := hrb rfl
      subst hcs
      exact dRT_red_spec (f+1) path pl pv pk pr ns df m n₀ (by omega) hns hd hs hp
    | false =>
      cases df with
      | true =>
        have hd' : Bal pl false m := hd
        have hs' : Bal pr cs (m+1) := hs
        have hm1 := hd'.one_le
        cases pr with
        | nil => cases hs'; omega
        | node sc2 a sv sk b =>
          by_cases hscr : sc2 = true
          · -- Case I: red sibling on the right
            subst hscr
            have hcs : cs = true := by rw [← hs'.isRed_eq]; simp
            subst hcs
            obtain ⟨ha, hb⟩ : Bal a false (m+1) ∧ Bal b false (m+1) := by
              cases hs' with
              | red x y => exact ⟨x, y⟩
            have hns' := pickSibling_right_of pl (.node true a sv sk b) ns rfl hns
            rw [dRT_caseI_right f path false pl a b pv sv pk sk ns hns']
            obtain ⟨t', m', hrun, hbal, hino⟩ :=
              dRT_red_spec f (⟨true, false, sv, sk, b⟩ :: path) pl pv pk a ns
                true m n₀ (by omega) hns hd' ha
                (PBal.blackL' true _ hb hp)
            refine ⟨t', m', hrun, hbal, ?_⟩
            rw [hino, plug_cons]
            exact inorder_plug_congr path (by simp [plugElem, List.append_assoc])
          · -- black sibling on the right
            have hsc2 : sc2 = false := by simpa using hscr
            subst hsc2
            have hcs : cs = false := by rw [← hs'.isRed_eq]; simp
            subst hcs
            obtain ⟨ca, cb, ha, hb⟩ : ∃ ca cb, Bal a ca m ∧ Bal b cb m := by
              cases hs' with
              | black h1 h2 => exact ⟨_, _, h1, h2⟩
            have hns' := pickSibling_right_of pl (.node false a sv sk b) ns rfl hns
            by_cases hbr : b.isRed = true
            · -- Case V: red outside nephew
              have hcb : cb = true := hb.isRed_eq.symm.trans hbr
              subst hcb
              refine ⟨_, n₀,
                dRT_caseV_right f path false pl a b pv sv pk sk ns hns' hbr,
                PBal.fill hp
                  (Bal.black (Bal.black hd' ha) (setRootBlack_bal hb))
                  (Or.inl rfl), ?_⟩
              rw [inorder_plug, inorder_plug]
              simp [List.append_assoc]
            · have hbb : b.isRed = false := by simpa using hbr
              have hcb : cb = false := hb.isRed_eq.symm.trans hbb
              subst hcb
              by_cases har : a.isRed = true
              · -- Case IV then Case V: red inside nephew
                have hca : ca = true := ha.isRed_eq.symm.trans har
                subst hca
                cases a with
                | nil => simp at har
                | node ac a1 aw aj a2 =>
                  have hac : ac = true := by simpa using ha.isRed_eq
                  subst hac
                  obtain ⟨h1, h2⟩ : Bal a1 false m ∧ Bal a2 false m := by
                    cases ha with
                    | red x y => exact ⟨x, y⟩
                  obtain ⟨f2, rfl⟩ : ∃ f2, f = f2 + 1 := ⟨f - 1, by omega⟩
                  have hns2 := pickSibling_right_of pl
                    (.node false a1 aw aj (.node true a2 sv sk b)) ns rfl hns
                  have hrun : deleteRestoreTree (f2+2) path
                      (.node false pl pv pk
                        (.node false (.node true a1 aw aj a2) sv sk b)) ns =
                      .ok (plug (.node false (.node false pl pv pk a1) aw aj
                        (.node false a2 sv sk b)) path) := by
                    rw [dRT_caseIV_right (f2+1) path false pl _ b pv sv pk sk ns
                      hns' (by simp) rfl hbb]
                    simp only [leftOf_node, rightOf_node, valueOf_node, cntOf_node]
                    rw [dRT_caseV_right f2 path false pl a1 (.node true a2 sv sk b)
                      pv aw pk aj ns hns2 (by simp)]
                    rfl
                  refine ⟨_, n₀, hrun,
                    PBal.fill hp
                      (Bal.black (Bal.black hd' h1) (Bal.black h2 hb))
                      (Or.inl rfl), ?_⟩
                  rw [inorder_plug, inorder_plug]
                  simp [List.append_assoc]
              · -- Case II: everything black, push the deficiency up
                have haa : a.isRed = false := by simpa using har
                have hca : ca = false := ha.isRed_eq.symm.trans haa
                subst hca
                have hpnew : Bal (.node false pl pv pk (.node true a sv sk b))
                    false (m+1) := Bal.black hd' (Bal.red ha hb)
                cases path with
                | nil =>
                  refine ⟨_, m+1,
                    dRT_caseII_right_nil f pl a b pv sv pk sk ns hns' haa hbb,
                    hpnew, by simp⟩
                | cons e rest =>
                  rw [dRT_caseII_right_cons f e rest pl a b pv sv pk sk ns hns'
                    haa hbb]
                  cases hp with
                  | @redL _ v k y _ hy hrest =>
                    obtain ⟨t', m', hrun, hbal, hino⟩ := ih rest true
                      (.node false pl pv pk (.node true a sv sk b)) v k y
                      (some true) true false (m+1) n₀
                      (by simp only [List.length_cons] at hfuel; omega)
                      (Or.inl rfl) hpnew hy (fun _ => rfl) hrest
                    refine ⟨t', m', hrun, hbal, ?_⟩
                    rw [hino, plug_cons]
                    exact inorder_plug_congr rest (by simp [plugElem])
                  | @redR _ v k y _ hy hrest =>
                    obtain ⟨t', m', hrun, hbal, hino⟩ := ih rest true y v k
                      (.node false pl pv pk (.node true a sv sk b))
                      (some false) false false (m+1) n₀
                      (by simp only [List.length_cons] at hfuel; omega)
                      (Or.inl rfl) hpnew hy (fun _ => rfl) hrest
                    refine ⟨t', m', hrun, hbal, ?_⟩
                    rw [hino, plug_cons]
                    exact inorder_plug_congr rest (by simp [plugElem])
                  | @blackL _ v k y _ _ c₂ hy hrest =>
                    obtain ⟨t', m', hrun, hbal, hino⟩ := ih rest false
                      (.node false pl pv pk (.node true a sv sk b)) v k y
                      (some true) true c₂ (m+1) n₀
                      (by simp only [List.length_cons] at hfuel; omega)
                      (Or.inl rfl) hpnew hy (by simp) hrest
                    refine ⟨t', m', hrun, hbal, ?_⟩
                    rw [hino, plug_cons]
                    exact inorder_plug_congr rest (by simp [plugElem])
                  | @blackR _ v k y _ _ c₂ hy hrest =>
                    obtain ⟨t', m', hrun, hbal, hino⟩ := ih rest false y v k
                      (.node false pl pv pk (.node true a sv sk b))
                      (some false) false c₂ (m+1) n₀
                      (by simp only [List.length_cons] at hfuel; omega)
                      (Or.inl rfl) hpnew hy (by simp) hrest
                    refine ⟨t', m', hrun, hbal, ?_⟩
                    rw [hino, plug_cons]
                    exact inorder_plug_congr rest (by simp [plugElem])
      | false =>
        have hd' : Bal pr false m := hd
        have hs' : Bal pl cs (m+1) := hs
        have hm1 := hd'.one_le
        cases pl with
        | nil => cases hs'; omega
        | node sc2 a sv sk b =>
          by_cases hscr : sc2 = true
          · -- Case I: red sibling on the left
            subst hscr
            have hcs : cs = true := by rw [← hs'.isRed_eq]; simp
            subst hcs
            obtain ⟨ha, hb⟩ : Bal a false (m+1) ∧ Bal b false (m+1) := by
              cases hs' with
              | red x y => exact ⟨x, y⟩
            have hns' := pickSibling_left_of (.node true a sv sk b) pr ns rfl hns
            rw [dRT_caseI_left f path false pr a b pv sv pk sk ns hns']
            obtain ⟨t', m', hrun, hbal, hino⟩ :=
              dRT_red_spec f (⟨false, false, sv, sk, a⟩ :: path) b pv pk pr ns
                false m n₀ (by omega) hns hd' hb
                (PBal.blackR' true _ ha hp)
            refine ⟨t', m', hrun, hbal, ?_⟩
            rw [hino, plug_cons]
            exact inorder_plug_congr path (by simp [plugElem, List.append_assoc])
          · -- black sibling on the left
            have hsc2 : sc2 = false := by simpa using hscr
            subst hsc2
            have hcs : cs = false := by rw [← hs'.isRed_eq]; simp
            subst hcs
            obtain ⟨ca, cb, ha, hb⟩ : ∃ ca cb, Bal a ca m ∧ Bal b cb m := by
              cases hs' with
              | black h1 h2 => exact ⟨_, _, h1, h2⟩
            have hns' := pickSibling_left_of (.node false a sv sk b) pr ns rfl hns
            by_cases har : a.isRed = true
            · -- Case V: red outside nephew
              have hca : ca = true := ha.isRed_eq.symm.trans har
              subst hca
              refine ⟨_, n₀,
                dRT_caseV_left f path false pr a b pv sv pk sk ns hns' har,
                PBal.fill hp
                  (Bal.black (setRootBlack_bal ha) (Bal.black hb hd'))
                  (Or.inl rfl), ?_⟩
              rw [inorder_plug, inorder_plug]
              simp [List.append_assoc]
            · have haa : a.isRed = false := by simpa using har
              have hca : ca = false := ha.isRed_eq.symm.trans haa
              subst hca
              by_cases hbr : b.isRed = true
              · -- Case IV then Case V: red inside nephew
                have hcb : cb = true := hb.isRed_eq.symm.trans hbr
                subst hcb
                cases b with
                | nil => simp at hbr
                | node bc b1 bw bj b2 =>
                  have hbc : bc = true := by simpa using hb.isRed_eq
                  subst hbc
                  obtain ⟨h1, h2⟩ : Bal b1 false m ∧ Bal b2 false m := by
                    cases hb with
                    | red x y => exact ⟨x, y⟩
                  obtain ⟨f2, rfl⟩ : ∃ f2, f = f2 + 1 := ⟨f - 1, by omega⟩
                  have hns2 := pickSibling_left_of
                    (.node false (.node true a sv sk b1) bw bj b2) pr ns rfl hns
                  have hrun : deleteRestoreTree (f2+2) path
                      (.node false
                        (.node false a sv sk (.node true b1 bw bj b2)) pv pk pr)
                      ns =
                      .ok (plug (.node false (.node false a sv sk b1) bw bj
                        (.node false b2 pv pk pr)) path) := by
                    rw [dRT_caseIV_left (f2+1) path false pr a _ pv sv pk sk ns
                      hns' (by simp) rfl haa]
                    simp only [leftOf_node, rightOf_node, valueOf_node, cntOf_node]
                    rw [dRT_caseV_left f2 path false pr (.node true a sv sk b1) b2
                      pv bw pk bj ns hns2 (by simp)]
                    rfl
                  refine ⟨_, n₀, hrun,
                    PBal.fill hp
                      (Bal.black (Bal.black ha h1) (Bal.black h2 hd'))
                      (Or.inl rfl), ?_⟩
                  rw [inorder_plug, inorder_plug]
                  simp [List.append_assoc]
              · -- Case II: everything black, push the deficiency up
                have hbb : b.isRed = false := by simpa using hbr
                have hcb : cb = false := hb.isRed_eq.symm.trans hbb
                subst hcb
                have hpnew : Bal (.node false (.node true a sv sk b) pv pk pr)
                    false (m+1) := Bal.black (Bal.red ha hb) hd'
                cases path with
                | nil =>
                  refine ⟨_, m+1,
                    dRT_caseII_left_nil f pr a b pv sv pk sk ns hns' haa hbb,
                    hpnew, by simp⟩
                | cons e rest =>
                  rw [dRT_caseII_left_cons f e rest pr a b pv sv pk sk ns hns'
                    haa hbb]
                  cases hp with
                  | @redL _ v k y _ hy hrest =>
                    obtain ⟨t', m', hrun, hbal, hino⟩ := ih rest true
                      (.node false (.node true a sv sk b) pv pk pr) v k y
                      (some true) true false (m+1) n₀
                      (by simp only [List.length_cons] at hfuel; omega)
                      (Or.inl rfl) hpnew hy (fun _ => rfl) hrest
                    refine ⟨t', m', hrun, hbal, ?_⟩
                    rw [hino, plug_cons]
                    exact inorder_plug_congr rest (by simp [plugElem])
                  | @redR _ v k y _ hy hrest =>
                    obtain ⟨t', m', hrun, hbal, hino⟩ := ih rest true y v k
                      (.node false (.node true a sv sk b) pv pk pr)
                      (some false) false false (m+1) n₀
                      (by simp only [List.length_cons] at hfuel; omega)
                      (Or.inl rfl) hpnew hy (fun _ => rfl) hrest
                    refine ⟨t', m', hrun, hbal, ?_⟩
                    rw [hino, plug_cons]
                    exact inorder_plug_congr rest (by simp [plugElem])
                  | @blackL _ v k y _ _ c₂ hy hrest =>
                    obtain ⟨t', m', hrun, hbal, hino⟩ := ih rest false
                      (.node false (.node true a sv sk b) pv pk pr) v k y
                      (some true) true c₂ (m+1) n₀
                      (by simp only [List.length_cons] at hfuel; omega)
                      (Or.inl rfl) hpnew hy (by simp) hrest
                    refine ⟨t', m', hrun, hbal, ?_⟩
                    rw [hino, plug_cons]
                    exact inorder_plug_congr rest (by simp [plugElem])
                  | @blackR _ v k y _ _ c₂ hy hrest =>
                    obtain ⟨t', m', hrun, hbal, hino⟩ := ih rest false y v k
                      (.node false (.node true a sv sk b) pv pk pr)
                      (some false) false c₂ (m+1) n₀
                      (by simp only [List.length_cons] at hfuel; omega)
                      (Or.inl rfl) hpnew hy (by simp) hrest
                    refine ⟨t', m', hrun, hbal, ?_⟩
                    rw [hino, plug_cons]
                    exact inorder_plug_congr rest (by simp [plugElem])

/-! ## Deletion: splice cases and the predecessor walk -/

theorem plug_append (t : RBNode) (p1 p2 : Path) :
    plug t (p1 ++ p2) = plug (plug t p1) p2 := by
  induction p1 generalizing t with
  | nil => rfl
  | cons e p1 ih => simp only [List.cons_append, plug_cons]; exact ih _

theorem iL_append (p1 p2 : Path) : iL (p1 ++ p2) = iL p2 ++ iL p1 := by
  induction p1 with
  | nil => simp [iL]
  | cons e p1 ih =>
    by_cases he : e.isLeft = true
    · simp [iL, he, ih]
    · simp [iL, he, ih, List.append_assoc]

theorem iR_append (p1 p2 : Path) : iR (p1 ++ p2) = iR p1 ++ iR p2 := by
  induction p1 with
  | nil => simp [iR]
  | cons e p1 ih =>
    simp only [List.cons_append, iR]
    by_cases he : e.isLeft = true
    · simp [he, ih, List.append_assoc]
    · simp [he, ih]

theorem Bal.val_cnt_irrel {c : Bool} {l : RBNode} {v : Int} {k : Nat}
    {r : RBNode} {c' : Bool} {n : Nat} (h : Bal (.node c l v k r) c' n)
    (v' : Int) (k' : Nat) : Bal (.node c l v' k' r) c' n := by
  cases h with
  | red hl hr => exact .red hl hr
  | black hl hr => exact .black hl hr

/-- The `inOrderPredecessor` loop: on a balanced non-null subtree it reaches
the rightmost node (null right child), extending the zipper by right steps
only, and the walked path is balanced. -/
theorem rightmostZ_bal : ∀ (t : RBNode) {ct : Bool} {nt : Nat}, Bal t ct nt →
    t.isNil = false → ∀ acc : Path,
    ∃ pp0 c2 l2 v2 k2 cp np,
      rightmostZ t acc = (pp0 ++ acc, .node c2 l2 v2 k2 .nil) ∧
      Bal (.node c2 l2 v2 k2 .nil) cp np ∧
      PBal ct nt pp0 cp np ∧
      plug (.node c2 l2 v2 k2 .nil) pp0 = t ∧
      iR pp0 = [] := by
  intro t
  induction t with
  | nil => intro ct nt _ hnn _; simp at hnn
  | node c l v k r ihl ihr =>
    intro ct nt h _ acc
    cases r with
    | nil =>
      exact ⟨[], c, l, v, k, ct, nt, rfl, h, PBal.root, rfl, rfl⟩
    | node rc rl rv rk rr =>
      cases h with
      | red hl hr =>
        obtain ⟨pp0, c2, l2, v2, k2, cp, np, heq, hbal, hpb, hplug, hiR⟩ :=
          ihr hr rfl (⟨false, true, v, k, l⟩ :: acc)
        refine ⟨pp0 ++ [⟨false, true, v, k, l⟩], c2, l2, v2, k2, cp, np,
          ?_, hbal, ?_, ?_, ?_⟩
        · rw [show rightmostZ (.node true l v k (.node rc rl rv rk rr)) acc =
            rightmostZ (.node rc rl rv rk rr) (⟨false, true, v, k, l⟩ :: acc)
            from rfl, heq]
          simp
        · exact PBal.append (PBal.redR hl PBal.root) hpb
        · rw [plug_append, hplug]
          rfl
        · rw [iR_append, hiR]
          rfl
      | @black _ _ _ _ n' c₁ c₂ hl hr =>
        obtain ⟨pp0, c2, l2, v2, k2, cp, np, heq, hbal, hpb, hplug, hiR⟩ :=
          ihr hr rfl (⟨false, false, v, k, l⟩ :: acc)
        refine ⟨pp0 ++ [⟨false, false, v, k, l⟩], c2, l2, v2, k2, cp, np,
          ?_, hbal, ?_, ?_, ?_⟩
        · rw [show rightmostZ (.node false l v k (.node rc rl rv rk rr)) acc =
            rightmostZ (.node rc rl rv rk rr) (⟨false, false, v, k, l⟩ :: acc)
            from rfl, heq]
          simp
        · exact PBal.append (PBal.blackR' c₂ _ hl PBal.root) hpb
        · rw [plug_append, hplug]
          rfl
        · rw [iR_append, hiR]
          rfl

theorem numNullChildren_le (s : RBNode) : numNullChildren s ≤ 2 := by
  cases s with
  | nil => simp [numNullChildren]
  | node c l v k r =>
    rw [numNullChildren]
    by_cases h1 : l.isNil = true <;> by_cases h2 : r.isNil = true <;>
      simp [h1, h2]

/-- The one- and zero-child delete cases: on a balanced focus with a null
child, the splice (or leaf removal plus fix-up) succeeds, rebalances, and
drops exactly the focused node\'s entry. -/
theorem rbDeleteAux_spec {c : Bool} {l : RBNode} {v : Int} {k : Nat}
    {r : RBNode} {cf : Bool} {n n₀ : Nat} {p : Path}
    (hf : Bal (.node c l v k r) cf n)
    (hp : PBal false n₀ p cf n)
    (hnn : 1 ≤ numNullChildren (.node c l v k r)) :
    ∃ t' m', rbDeleteAux (.node c l v k r) p = .ok t' ∧ Bal t' false m' ∧
      inorder t' = iL p ++ (inorder l ++ inorder r) ++ iR p := by
  by_cases h2 : numNullChildren (.node c l v k r) = 2
  · -- both children null: detach the leaf
    have hln : l = .nil := by
      cases l with
      | nil => rfl
      | node _ _ _ _ _ =>
        cases r <;> simp [numNullChildren, RBNode.isNil] at h2
    have hrn : r = .nil := by
      cases r with
      | nil => rfl
      | node _ _ _ _ _ =>
        cases l <;> simp [numNullChildren, RBNode.isNil] at h2
    subst hln; subst hrn
    cases hf with
    | red ha hb =>
      cases ha
      -- red leaf: just drop it
      cases p with
      | nil =>
        refine ⟨.nil, 1, ?_, Bal.nil, by simp [iL, iR]⟩
        rw [rbDeleteAux]
        simp [numNullChildren]
      | cons e rest =>
        refine ⟨plug (plugElem .nil e) rest, n₀, ?_, ?_, ?_⟩
        · rw [rbDeleteAux]
          simp only [numNullChildren]
          by_cases he : e.isLeft = true <;> simp [plugElem, he]
        · rw [← plug_cons]
          exact PBal.fill hp Bal.nil (Or.inl rfl)
        · rw [← plug_cons, inorder_plug]
          simp
    | black ha hb =>
      cases ha
      -- black leaf: detach and run the delete fix-up with a null notSibling
      cases p with
      | nil =>
        -- the root itself: delete root
        refine ⟨.nil, 1, ?_, Bal.nil, by simp [iL, iR]⟩
        rw [rbDeleteAux]
        simp [numNullChildren]
      | cons e rest =>
        have hstep : rbDeleteAux (.node false .nil v k .nil) (e :: rest) =
            deleteRestoreTree (rest.length + 6) rest (plugElem .nil e) none := by
          rw [rbDeleteAux]
          simp only [numNullChildren]
          by_cases he : e.isLeft = true <;> simp [plugElem, he]
        rw [hstep]
        cases hp with
        | @redL _ v1 k1 y _ hy hrest =>
          obtain ⟨t', m', hrun, hbal, hino⟩ := deleteRestoreTree_spec
            (rest.length + 6) rest true .nil v1 k1 y none true false 1 n₀
            (by omega) (Or.inr ⟨rfl, rfl⟩) Bal.nil hy (fun _ => rfl) hrest
          refine ⟨t', m', hrun, hbal, ?_⟩
          rw [hino, show plug (.node true .nil v1 k1 y) rest =
            plug RBNode.nil (⟨true, true, v1, k1, y⟩ :: rest) from rfl,
            inorder_plug]
          simp [iL, iR]
        | @redR _ v1 k1 y _ hy hrest =>
          obtain ⟨t', m', hrun, hbal, hino⟩ := deleteRestoreTree_spec
            (rest.length + 6) rest true y v1 k1 .nil none false false 1 n₀
            (by omega) (Or.inr ⟨rfl, rfl⟩) Bal.nil hy (fun _ => rfl) hrest
          refine ⟨t', m', hrun, hbal, ?_⟩
          rw [hino, show plug (.node true y v1 k1 .nil) rest =
            plug RBNode.nil (⟨false, true, v1, k1, y⟩ :: rest) from rfl,
            inorder_plug]
          simp [iL, iR, List.append_assoc]
        | @blackL _ v1 k1 y _ _ c₂ hy hrest =>
          obtain ⟨t', m', hrun, hbal, hino⟩ := deleteRestoreTree_spec
            (rest.length + 6) rest false .nil v1 k1 y none true c₂ 1 n₀
            (by omega) (Or.inr ⟨rfl, rfl⟩) Bal.nil hy (by simp) hrest
          refine ⟨t', m', hrun, hbal, ?_⟩
          rw [hino, show plug (.node false .nil v1 k1 y) rest =
            plug RBNode.nil (⟨true, false, v1, k1, y⟩ :: rest) from rfl,
            inorder_plug]
          simp [iL, iR]
        | @blackR _ v1 k1 y _ _ c₂ hy hrest =>
          obtain ⟨t', m', hrun, hbal, hino⟩ := deleteRestoreTree_spec
            (rest.length + 6) rest false y v1 k1 .nil none false c₂ 1 n₀
            (by omega) (Or.inr ⟨rfl, rfl⟩) Bal.nil hy (by simp) hrest
          refine ⟨t', m', hrun, hbal, ?_⟩
          rw [hino, show plug (.node false y v1 k1 .nil) rest =
            plug RBNode.nil (⟨false, false, v1, k1, y⟩ :: rest) from rfl,
            inorder_plug]
          simp [iL, iR, List.append_assoc]
  · -- exactly one null child: splice the red child
    have hle := numNullChildren_le (.node c l v k r)
    have h1 : numNullChildren (.node c l v k r) = 1 := by omega
    obtain ⟨cl, cv, ck, cr, v2, k2, hsh, hcl, hcr⟩ := oneChild_shape hf h1
    rcases hsh with hsh | hsh
    · -- null right child, red left child
      simp only [RBNode.node.injEq] at hsh
      obtain ⟨hc, hl, hv, hk, hr⟩ := hsh
      subst hc; subst hl; subst hr; subst hv; subst hk
      have hn2 : n = 2 := by
        cases hf with
        | black hx hy => cases hy; exact rfl
      have hcf : cf = false := by
        cases hf with
        | black _ _ => rfl
      subst hn2; subst hcf
      refine ⟨plug (.node false cl cv ck cr) p, n₀, ?_, ?_, ?_⟩
      · simp only [rbDeleteAux]
        simp [numNullChildren, setRootBlack]
      · exact PBal.fill hp (Bal.black hcl hcr) (Or.inl rfl)
      · rw [inorder_plug]
        simp
    · -- null left child, red right child
      simp only [RBNode.node.injEq] at hsh
      obtain ⟨hc, hl, hv, hk, hr⟩ := hsh
      subst hc; subst hl; subst hr; subst hv; subst hk
      have hn2 : n = 2 := by
        cases hf with
        | black hx hy => cases hx; exact rfl
      have hcf : cf = false := by
        cases hf with
        | black _ _ => rfl
      subst hn2; subst hcf
      refine ⟨plug (.node false cl cv ck cr) p, n₀, ?_, ?_, ?_⟩
      · simp only [rbDeleteAux]
        simp [numNullChildren, setRootBlack]
      · exact PBal.fill hp (Bal.black hcl hcr) (Or.inl rfl)
      · rw [inorder_plug]
        simp

/-- `rbDelete` on a balanced focus: succeeds, rebalances, and removes exactly
the focused node\'s entry from the in-order list. -/
theorem rbDelete_spec {c : Bool} {l : RBNode} {v : Int} {k : Nat} {r : RBNode}
    {cf : Bool} {n n₀ : Nat} {p : Path}
    (hf : Bal (.node c l v k r) cf n) (hp : PBal false n₀ p cf n) :
    ∃ t' m', rbDelete (.node c l v k r) p = .ok t' ∧ Bal t' false m' ∧
      inorder t' = iL p ++ (inorder l ++ inorder r) ++ iR p := by
  cases l with
  | nil =>
    have hnn : 1 ≤ numNullChildren (.node c .nil v k r) := by
      rw [numNullChildren]; simp [RBNode.isNil]
    have hstep : rbDelete (.node c .nil v k r) p =
        rbDeleteAux (.node c .nil v k r) p := by
      cases r <;> rfl
    rw [hstep]
    exact rbDeleteAux_spec hf hp hnn
  | node lc ll lv lk lr =>
    cases r with
    | nil =>
      have hnn : 1 ≤ numNullChildren
          (.node c (.node lc ll lv lk lr) v k .nil) := by
        rw [numNullChildren]; simp [RBNode.isNil]
      exact rbDeleteAux_spec hf hp hnn
    | node rc rl rv rk rr =>
      -- two children: swap with the in-order predecessor and delete it
      cases hf with
      | red hl hr =>
        obtain ⟨pp0, c2, l2, v2, k2, cp, np, heq, hbalp, hpb, hplug, hiR⟩ :=
          rightmostZ_bal (.node lc ll lv lk lr) hl rfl []
        rw [List.append_nil] at heq
        have hstep : rbDelete
            (.node true (.node lc ll lv lk lr) v k (.node rc rl rv rk rr)) p =
            rbDeleteAux (.node c2 l2 v k .nil)
              (pp0 ++ ⟨true, true, v2, k2, .node rc rl rv rk rr⟩ :: p) := by
          simp only [rbDelete]
          rw [heq]
          simp
        have hnn : 1 ≤ numNullChildren (.node c2 l2 v k .nil) := by
          rw [numNullChildren]; simp [RBNode.isNil]
        obtain ⟨t', m', hrun, hbal, hino⟩ := rbDeleteAux_spec
          (hbalp.val_cnt_irrel v k)
          (PBal.append (PBal.redL hr hp) hpb) hnn
        refine ⟨t', m', by rw [hstep]; exact hrun, hbal, ?_⟩
        rw [hino, ← hplug, inorder_plug]
        simp [iL_append, iR_append, iL, iR, hiR, List.append_assoc]
      | @black _ _ _ _ n' c₁ c₂ hl hr =>
        obtain ⟨pp0, c2, l2, v2, k2, cp, np, heq, hbalp, hpb, hplug, hiR⟩ :=
          rightmostZ_bal (.node lc ll lv lk lr) hl rfl []
        rw [List.append_nil] at heq
        have hstep : rbDelete
            (.node false (.node lc ll lv lk lr) v k (.node rc rl rv rk rr)) p =
            rbDeleteAux (.node c2 l2 v k .nil)
              (pp0 ++ ⟨true, false, v2, k2, .node rc rl rv rk rr⟩ :: p) := by
          simp only [rbDelete]
          rw [heq]
          simp
        have hnn : 1 ≤ numNullChildren (.node c2 l2 v k .nil) := by
          rw [numNullChildren]; simp [RBNode.isNil]
        obtain ⟨t', m', hrun, hbal, hino⟩ := rbDeleteAux_spec
          (hbalp.val_cnt_irrel v k)
          (PBal.append (PBal.blackL' c₁ _ hr hp) hpb) hnn
        refine ⟨t', m', by rw [hstep]; exact hrun, hbal, ?_⟩
        rw [hino, ← hplug, inorder_plug]
        simp [iL_append, iR_append, iL, iR, hiR, List.append_assoc]

/-- Walking `findZ` through a balanced tree yields a balanced focus in a
balanced context. -/
theorem findZ_bal : ∀ (t : RBNode) {x : Int} {acc p : Path} {s : RBNode}
    {ct : Bool} {nt n₀ : Nat},
    Bal t ct nt → PBal false n₀ acc ct nt → findZ t x acc = some (p, s) →
    ∃ cs ns, Bal s cs ns ∧ PBal false n₀ p cs ns := by
  intro t
  induction t with
  | nil => intro x acc p s ct nt n₀ _ _ h; simp [findZ] at h
  | node c l v k r ihl ihr =>
    intro x acc p s ct nt n₀ hf hp h
    rw [findZ] at h
    by_cases h1 : v = x
    · rw [if_pos h1] at h
      simp at h
      obtain ⟨h2, h3⟩ := h
      subst h2; subst h3
      exact ⟨ct, nt, hf, hp⟩
    · rw [if_neg h1] at h
      by_cases h2 : x < v
      · rw [if_pos h2] at h
        cases hf with
        | red hl hr => exact ihl hl (PBal.redL hr hp) h
        | black hl hr => exact ihl hl (PBal.blackL hr hp) h
      · rw [if_neg h2] at h
        cases hf with
        | red hl hr => exact ihr hr (PBal.redR hl hp) h
        | black hl hr => exact ihr hr (PBal.blackR hl hp) h

/-- `remove` on a well-formed tree: a missing value raises `NotFound` with the
tree untouched; a present value succeeds, keeps the tree well-formed,
decrements the value\'s multiplicity and `numElems`. -/
theorem remove_spec {t : Tree} (hg : Good t) (x : Int) :
    (countVal t.root x = 0 → remove t x = .notFound t) ∧
    (1 ≤ countVal t.root x → ∃ t', remove t x = .ok t' ∧ Good t' ∧
      t'.numElems = t.numElems - 1 ∧
      (∀ y, cntL (inorder t.root) y =
        cntL (inorder t'.root) y + (if x = y then 1 else 0))) := by
  obtain ⟨⟨nb, hbal⟩, hpw, hpos, hne⟩ := hg
  constructor
  · intro h0
    have hfn : findNode t.root x = none := (countVal_zero_iff hpos x).mp h0
    have hfz : findZ t.root x [] = none := by
      cases hz : findZ t.root x [] with
      | none => rfl
      | some pr =>
        have h := @findZ_eq_findNode t.root x ([] : Path)
        rw [hz, hfn] at h
        simp at h
    rw [remove, hfz]
  · intro h1
    cases hz : findZ t.root x [] with
    | none =>
      have hfn : findNode t.root x = none := by
        rw [← @findZ_eq_findNode _ _ ([] : Path), hz]; rfl
      rw [countVal, hfn] at h1
      simp at h1
    | some pr =>
      obtain ⟨p, s⟩ := pr
      have hfn : findNode t.root x = some s := by
        rw [← @findZ_eq_findNode _ _ ([] : Path), hz]; rfl
      obtain ⟨c, l, k, r, hs, hmem⟩ := findNode_mem hfn
      subst hs
      obtain ⟨cs, ns, hfb, hpb⟩ := findZ_bal t.root hbal PBal.root hz
      have hplg : plug (.node c l x k r) p = t.root := by
        have h := findZ_plug hz
        rwa [plug_nil] at h
      have horig : inorder t.root =
          iL p ++ (inorder l ++ (x, k) :: inorder r) ++ iR p := by
        rw [← hplg, inorder_plug, inorder_node]
      by_cases hk1 : k = 1
      · subst hk1
        obtain ⟨t', m', hrun, hbal', hino⟩ := rbDelete_spec hfb hpb
        have hsub : List.Sublist (inorder t') (inorder t.root) := by
          rw [hino, horig]
          exact (((List.Sublist.cons _ (List.Sublist.refl _)).append_left
            (inorder l)).append_left (iL p)).append_right (iR p)
        refine ⟨⟨t', t.numElems - 1⟩, ?_, ?_, rfl, ?_⟩
        · rw [remove, hz]
          simp [hrun]
        · refine ⟨⟨m', hbal'⟩, hpw.sublist hsub, fun q hq => hpos q (hsub.subset hq), ?_⟩
          have hsum : sumCnt (inorder t.root) = sumCnt (inorder t') + 1 := by
            rw [horig, hino]
            simp only [sumCnt_append, sumCnt]
            omega
          show t.numElems - 1 = ((sumCnt (inorder t') : Int))
          rw [hne, hsum]
          push_cast
          omega
        · intro y
          rw [horig, hino]
          simp only [cntL_append, cntL]
          by_cases hxy : x = y <;> simp [hxy] <;> omega
      · have hk2 : 2 ≤ k := by
          have := hpos _ hmem
          omega
        have hnew : inorder (plug (.node c l x (k-1) r) p) =
            iL p ++ (inorder l ++ (x, k-1) :: inorder r) ++ iR p := by
          rw [inorder_plug, inorder_node]
        refine ⟨⟨plug (.node c l x (k-1) r) p, t.numElems - 1⟩, ?_, ?_, rfl, ?_⟩
        · rw [remove, hz]
          simp [hk1]
        · refine ⟨⟨nb, PBal.fill hpb (hfb.cnt_irrel (k-1)) (Or.inr rfl)⟩,
            ?_, ?_, ?_⟩
          · refine pairwise_entLT_congr ?_ hpw
            rw [horig, hnew]
            simp
          · intro q hq
            rw [hnew] at hq
            by_cases hqx : q = (x, k-1)
            · subst hqx
              show 1 ≤ k - 1
              omega
            · apply hpos q
              rw [horig]
              simp only [List.mem_append, List.mem_cons] at hq ⊢
              tauto
          · have hsum : sumCnt (inorder t.root) =
                sumCnt (inorder (plug (.node c l x (k-1) r) p)) + 1 := by
              rw [horig, hnew]
              simp only [sumCnt_append, sumCnt]
              omega
            show t.numElems - 1 =
              ((sumCnt (inorder (plug (.node c l x (k-1) r) p)) : Int))
            rw [hne, hsum]
            push_cast
            omega
        · intro y
          rw [horig]
          show cntL (iL p ++ (inorder l ++ (x, k) :: inorder r) ++ iR p) y =
            cntL (inorder (plug (.node c l x (k-1) r) p)) y +
              (if x = y then 1 else 0)
          rw [hnew]
          simp only [cntL_append, cntL]
          by_cases hxy : x = y <;> simp [hxy] <;> omega

/-! ## Operation sequences and remaining helpers -/

theorem sumCnt_zero_nil {l : List (Int × Nat)} (h : sumCnt l = 0)
    (hp : ∀ q ∈ l, 1 ≤ q.2) : l = [] := by
  cases l with
  | nil => rfl
  | cons q rest =>
    obtain ⟨v, k⟩ := q
    have h1 := hp (v, k) (by simp)
    simp only [sumCnt] at h
    simp at h1
    omega

theorem inorder_eq_nil {t : RBNode} (h : inorder t = []) : t = .nil := by
  cases t with
  | nil => rfl
  | node c l v k r => rw [inorder] at h; simp at h

/-- `recursiveInsert` never dereferences a null parent: its fix-up calls are
always anchored below a live parent. -/
theorem recursiveInsert_no_nullDeref : ∀ (focus : RBNode) (path : Path)
    (x : Int), recursiveInsert x focus path ≠ .error .nullDeref := by
  intro focus
  induction focus with
  | nil => intro path x; rw [recursiveInsert]; simp
  | node c l v k r ihl ihr =>
    intro path x
    rw [recursiveInsert]
    by_cases h1 : x = v
    · simp [h1]
    · by_cases h2 : x < v
      · simp only [h1, h2, if_neg (by simp : ¬False), if_pos rfl]
        by_cases h3 : l.isNil = true
        · simp only [h3, if_pos rfl]
          exact restoreTree_safety _ _ _ (fun h => by simp at h)
        · simp only [h3, Bool.false_eq_true, if_neg (by simp : ¬False)]
          exact ihl _ _
      · simp only [h1, h2, if_neg (by simp : ¬False)]
        by_cases h3 : r.isNil = true
        · simp only [h3, if_pos rfl]
          exact restoreTree_safety _ _ _ (fun h => by simp at h)
        · simp only [h3, Bool.false_eq_true, if_neg (by simp : ¬False)]
          exact ihr _ _

/-- Running a precondition-respecting sequence of operations preserves the
invariant. -/
theorem runOps_good : ∀ (ops : List Op) (t : Tree), Good t →
    precOkB t ops = true → ∃ t', runOps t ops = .ok t' ∧ Good t' := by
  intro ops
  induction ops with
  | nil => intro t hg _; exact ⟨t, rfl, hg⟩
  | cons op rest ih =>
    intro t hg hpre
    cases op with
    | ins x =>
      obtain ⟨t1, hrun, hg1, _, _⟩ := insert_spec hg x
      simp only [precOkB, hrun] at hpre
      obtain ⟨t', hrun', hg'⟩ := ih t1 hg1 hpre
      refine ⟨t', ?_, hg'⟩
      simp only [runOps, hrun]
      exact hrun'
    | rem x =>
      simp only [precOkB, Bool.and_eq_true] at hpre
      obtain ⟨hc, hpre2⟩ := hpre
      have hc' : 1 ≤ countVal t.root x := of_decide_eq_true hc
      obtain ⟨t1, hrun, hg1, _, _⟩ := (remove_spec hg x).2 hc'
      rw [hrun] at hpre2
      have hpre3 : precOkB t1 rest = true := hpre2
      obtain ⟨t', hrun', hg'⟩ := ih t1 hg1 hpre3
      refine ⟨t', ?_, hg'⟩
      simp only [runOps, hrun]
      exact hrun'

/-- A small concrete well-formed tree used to instantiate the claims. -/
def T1 : Tree := ⟨.node false .nil 5 1 .nil, 1⟩

theorem Good_T1 : Good T1 :=
  ⟨⟨2, balCheck_sound rfl⟩, by simp [T1], by simp [T1], by decide⟩

/-! ## The claims -/

/-- C1: for every finite sequence of `insert`/`remove` calls starting from an
empty tree, where each `remove` targets a value with count at least 1, the
run succeeds and the resulting tree passes all five structural checks of
`verifyProperties` simultaneously. -/
theorem C1_invariant_closure (ops : List Op)
    (hpre : precOkB emptyTree ops = true) :
    ∃ t', runOps emptyTree ops = .ok t' ∧ verifyProperties t' = true := by
  obtain ⟨t', h1, h2⟩ := runOps_good ops emptyTree Good_emptyTree hpre
  exact ⟨t', h1, h2.verify⟩

theorem C1_invariant_closure_witness :
    precOkB emptyTree
      [.ins 3, .ins 1, .ins 4, .ins 1, .rem 1, .ins 5, .rem 4, .rem 3] = true ∧
    ∃ t', runOps emptyTree
      [.ins 3, .ins 1, .ins 4, .ins 1, .rem 1, .ins 5, .rem 4, .rem 3] = .ok t' ∧
      verifyProperties t' = true :=
  ⟨by decide, C1_invariant_closure _ (by decide)⟩

/-- C2: `remove v` signals `NotFound` exactly when `count v = 0` at the call,
and in that case the tree the caller holds is the unchanged one: same `size`,
`count` and `contains` for every value. -/
theorem C2_remove_notFound {t : Tree} (hg : Good t) (x : Int) :
    ((∃ u, remove t x = .notFound u) ↔ t.count x = 0) ∧
    (∀ u, remove t x = .notFound u → u = t ∧ u.size = t.size ∧
      (∀ w, u.count w = t.count w) ∧
      (∀ w, u.containsVal w = t.containsVal w)) := by
  have hspec := remove_spec hg x
  constructor
  · constructor
    · rintro ⟨u, hu⟩
      by_contra hne0
      have h1 : 1 ≤ countVal t.root x := by
        rw [count_eq_countVal] at hne0
        omega
      obtain ⟨t', hrun, _, _, _⟩ := hspec.2 h1
      rw [hrun] at hu
      exact absurd hu (by simp)
    · intro h0
      have h0' : countVal t.root x = 0 := by
        rw [count_eq_countVal] at h0
        omega
      exact ⟨t, hspec.1 h0'⟩
  · intro u hu
    by_cases h1 : 1 ≤ countVal t.root x
    · obtain ⟨t', hrun, _, _, _⟩ := hspec.2 h1
      rw [hrun] at hu
      exact absurd hu (by simp)
    · have h0 : countVal t.root x = 0 := by omega
      rw [hspec.1 h0] at hu
      have hut : u = t := by
        simp only [RResult.notFound.injEq] at hu
        exact hu.symm
      subst hut
      exact ⟨rfl, rfl, fun _ => rfl, fun _ => rfl⟩

theorem C2_remove_notFound_witness :
    ((∃ u, remove T1 7 = .notFound u) ↔ T1.count 7 = 0) ∧
    (∀ u, remove T1 7 = .notFound u → u = T1 ∧ u.size = T1.size ∧
      (∀ w, u.count w = T1.count w) ∧
      (∀ w, u.containsVal w = T1.containsVal w)) :=
  C2_remove_notFound Good_T1 7

/-- C3: after `insert v`, `count v` grew by 1, `size` grew by 1, every other
`count` is unchanged, and when `v` was already present the new tree is the
old one with only the found node\'s `count` field incremented — no new node,
no structural change, no fix-up. -/
theorem C3_insert_effects {t : Tree} (hg : Good t) (x : Int) :
    ∃ t', insert t x = .ok t' ∧
      t'.count x = t.count x + 1 ∧
      t'.size = t.size + 1 ∧
      (∀ w, w ≠ x → t'.count w = t.count w) ∧
      (1 ≤ t.count x → ∃ p c l k r,
        t.root = plug (.node c l x k r) p ∧
        t'.root = plug (.node c l x (k+1) r) p) := by
  obtain ⟨t', hrun, hg', hsz, hcnt⟩ := insert_spec hg x
  refine ⟨t', hrun, ?_, ?_, ?_, ?_⟩
  · rw [count_eq_countVal, count_eq_countVal, countVal_eq_cntL hg'.2.1,
      countVal_eq_cntL hg.2.1, hcnt x]
    simp
  · show t'.numElems = t.numElems + 1
    exact hsz
  · intro w hw
    rw [count_eq_countVal, count_eq_countVal, countVal_eq_cntL hg'.2.1,
      countVal_eq_cntL hg.2.1, hcnt w]
    simp [Ne.symm hw]
  · intro hpres
    have h1 : 1 ≤ countVal t.root x := by
      rw [count_eq_countVal] at hpres
      omega
    cases hf2 : findNode t.root x with
    | none => rw [countVal, hf2] at h1; simp at h1
    | some s =>
      obtain ⟨c, l, k, r, hs, _⟩ := findNode_mem hf2
      subst hs
      cases hz : findZ t.root x [] with
      | none =>
        exfalso
        have h := @findZ_eq_findNode t.root x ([] : Path)
        rw [hz, hf2] at h
        simp at h
      | some pr =>
        obtain ⟨p, s2⟩ := pr
        have h := @findZ_eq_findNode t.root x ([] : Path)
        rw [hz, hf2] at h
        simp at h
        subst h
        obtain ⟨hshape, hins⟩ := insert_found (t := t) (x := x) hz
        rw [hrun] at hins
        simp only [Except.ok.injEq] at hins
        exact ⟨p, c, l, k, r, hshape, by rw [hins]⟩

theorem C3_insert_effects_witness :
    ∃ t', insert T1 5 = .ok t' ∧
      t'.count 5 = T1.count 5 + 1 ∧
      t'.size = T1.size + 1 ∧
      (∀ w, w ≠ 5 → t'.count w = T1.count w) ∧
      (1 ≤ T1.count 5 → ∃ p c l k r,
        T1.root = plug (.node c l 5 k r) p ∧
        t'.root = plug (.node c l 5 (k+1) r) p) :=
  C3_insert_effects Good_T1 5

/-- C4: `insert v` immediately followed by `remove v` restores every `count`
and the `size`; in particular an empty tree is empty again afterwards. -/
theorem C4_insert_remove_cancel {t : Tree} (hg : Good t) (x : Int) :
    ∃ t1 t2, insert t x = .ok t1 ∧ remove t1 x = .ok t2 ∧
      (∀ w, t2.count w = t.count w) ∧ t2.size = t.size ∧
      (t.root = .nil → t2.root = .nil) := by
  obtain ⟨t1, hrun1, hg1, hsz1, hcnt1⟩ := insert_spec hg x
  have h1 : 1 ≤ countVal t1.root x := by
    rw [countVal_eq_cntL hg1.2.1, hcnt1 x]
    simp
  obtain ⟨t2, hrun2, hg2, hsz2, hcnt2⟩ := (remove_spec hg1 x).2 h1
  refine ⟨t1, t2, hrun1, hrun2, ?_, ?_, ?_⟩
  · intro w
    rw [count_eq_countVal, count_eq_countVal, countVal_eq_cntL hg2.2.1,
      countVal_eq_cntL hg.2.1]
    have e1 := hcnt1 w
    have e2 := hcnt2 w
    by_cases hxw : x = w <;> simp [hxw] at e1 e2 <;> omega
  · show t2.numElems = t.numElems
    rw [hsz2, hsz1]
    omega
  · intro hnil
    have h0 : t.numElems = 0 := by
      have := hg.2.2.2
      rw [hnil] at this
      simpa [sumCnt] using this
    have hs0 : sumCnt (inorder t2.root) = 0 := by
      have h2 := hg2.2.2.2
      rw [hsz2, hsz1, h0] at h2
      omega
    have hent := sumCnt_zero_nil hs0 hg2.2.2.1
    exact inorder_eq_nil hent

theorem C4_insert_remove_cancel_witness :
    ∃ t1 t2, insert T1 9 = .ok t1 ∧ remove t1 9 = .ok t2 ∧
      (∀ w, t2.count w = T1.count w) ∧ t2.size = T1.size ∧
      (T1.root = .nil → t2.root = .nil) :=
  C4_insert_remove_cancel Good_T1 9

/-- C5: copy construction and assignment duplicate the node graph exactly —
same root value/count/color/shape, hence the same `count` for every value and
the same `size`; assignment performs the same deep copy; self-assignment
leaves the tree unchanged. -/
theorem C5_copy_assign (t d : Tree) :
    (copyCtor t).root = t.root ∧
    (copyCtor t).size = t.size ∧
    (∀ v, (copyCtor t).count v = t.count v) ∧
    assign false d t = copyCtor t ∧
    assign true t t = t := by
  refine ⟨copyTree_eq _, rfl, ?_, rfl, rfl⟩
  intro v
  show Tree.count ⟨copyTree t.root, t.numElems⟩ v = t.count v
  rw [Tree.count, Tree.count, copyTree_eq]

/-- C6: at a non-integral ordered element type, `swap` does NOT exchange the
values exactly — the generic claim fails.  `swap` routes the left value
through `int temp`, truncating it: swapping the rationals 3/2 and 1/2 leaves
the right node holding 1, not 3/2.  (At `ElemType = int` the exchange is
lossless, which is what the rest of the development models.) -/
theorem C6_swap_truncates_rational :
    (swapQ ⟨(⟨3, 2, by decide, by decide⟩ : ℚ), 1⟩
        ⟨(⟨1, 2, by decide, by decide⟩ : ℚ), 1⟩).1.value =
      (⟨1, 2, by decide, by decide⟩ : ℚ) ∧
    (swapQ ⟨(⟨3, 2, by decide, by decide⟩ : ℚ), 1⟩
        ⟨(⟨1, 2, by decide, by decide⟩ : ℚ), 1⟩).2.value = 1 ∧
    (swapQ ⟨(⟨3, 2, by decide, by decide⟩ : ℚ), 1⟩
        ⟨(⟨1, 2, by decide, by decide⟩ : ℚ), 1⟩).2.value ≠
      (⟨3, 2, by decide, by decide⟩ : ℚ) := by
  refine ⟨rfl, ?_, ?_⟩ <;> decide

/-- A second concrete well-formed tree, holding a one-child node. -/
def T2 : Tree := ⟨.node false (.node true .nil 1 1 .nil) 2 1 .nil, 2⟩

theorem Good_T2 : Good T2 :=
  ⟨⟨2, balCheck_sound rfl⟩, by simp [T2, entLT], by simp [T2], by decide⟩

/-- C7: in a well-formed tree, a node with exactly one present child is black
with a red child, so the `!currNode->red && child->red` guard always holds:
the child is spliced into the node\'s place recolored black, with no delete
fix-up pass. -/
theorem C7_one_child {t : Tree} (hg : Good t) {s : RBNode}
    (hsub : Subtree s t.root) (h1 : numNullChildren s = 1) (p : Path) :
    s.isRed = false ∧
    (if s.leftOf.isNil then s.rightOf else s.leftOf).isRed = true ∧
    rbDeleteAux s p = .ok (plug (setRootBlack
      (if s.leftOf.isNil then s.rightOf else s.leftOf)) p) := by
  obtain ⟨nb, hbal⟩ := hg.1
  obtain ⟨c', n', hbs⟩ := Bal.subtree hsub hbal
  obtain ⟨cl, cv, ck, cr, v2, k2, hsh, hcl, hcr⟩ := oneChild_shape hbs h1
  rcases hsh with hsh | hsh <;> subst hsh
  · refine ⟨rfl, by simp, ?_⟩
    simp only [rbDeleteAux]
    simp [numNullChildren, setRootBlack]
  · refine ⟨rfl, by simp, ?_⟩
    simp only [rbDeleteAux]
    simp [numNullChildren, setRootBlack]

theorem C7_one_child_witness :
    (T2.root).isRed = false ∧
    (if (T2.root).leftOf.isNil then (T2.root).rightOf
      else (T2.root).leftOf).isRed = true ∧
    rbDeleteAux T2.root [] = .ok (plug (setRootBlack
      (if (T2.root).leftOf.isNil then (T2.root).rightOf
        else (T2.root).leftOf)) []) :=
  C7_one_child Good_T2 (Subtree.refl _) (by decide) []

/-- C8: the insert fix-up checks the root color first — a red root is
recolored black and the pass returns without touching the anchor\'s parent;
only under a black root is the parent examined, and no reachable call (empty
path only with a red anchor, as `recursiveInsert` guarantees) dereferences a
null parent. -/
theorem C8_restore_root_first (fuel : Nat) (focus : RBNode) (path : Path) :
    ((plug focus path).isNil = false → (plug focus path).isRed = true →
      restoreTree (fuel+1) focus path = .ok (setRootBlack (plug focus path))) ∧
    ((path = [] → focus.isRed = true) →
      restoreTree fuel focus path ≠ .error .nullDeref) ∧
    (∀ x, recursiveInsert x focus path ≠ .error .nullDeref) := by
  refine ⟨?_, restoreTree_safety fuel focus path,
    fun x => recursiveInsert_no_nullDeref focus path x⟩
  intro h1 h2
  cases path with
  | nil =>
    rw [restoreTree_succ_nil]
    have h1' : focus.isNil = false := h1
    have h2' : focus.isRed = true := h2
    simp [h1', h2']
  | cons e1 rest =>
    cases rest with
    | nil =>
      simp only [plug_cons, plug_nil] at h1 h2
      rw [restoreTree_succ_one,
        show plug focus [e1] = plugElem focus e1 from rfl,
        if_neg (by simp [h1]), if_pos h2]
    | cons e2 r2 =>
      simp only [plug_cons] at h1 h2
      rw [restoreTree_succ_two,
        show plug focus (e1 :: e2 :: r2) =
          plug (plugElem (plugElem focus e1) e2) r2 from rfl,
        if_neg (by simp [h1]), if_pos h2]

theorem C8_restore_root_first_witness :
    restoreTree 1 (.node true .nil 1 1 .nil) [] =
      .ok (setRootBlack (plug (.node true .nil 1 1 .nil) [])) ∧
    restoreTree 2 (.node true .nil 1 1 .nil) [] ≠ .error .nullDeref ∧
    recursiveInsert 2 (.node true .nil 1 1 .nil) [] ≠ .error .nullDeref :=
  ⟨(C8_restore_root_first 0 (.node true .nil 1 1 .nil) []).1 (by decide)
      (by decide),
    (C8_restore_root_first 2 (.node true .nil 1 1 .nil) []).2.1
      (fun _ => rfl),
    (C8_restore_root_first 2 (.node true .nil 1 1 .nil) []).2.2 2⟩

/-- C9: the delete fix-up terminates on every call satisfying the reachable
configurations\' invariant (deficient side one black level short, balanced
sibling, coherent `notSibling`): with fuel past the path length it returns a
result — Case I re-enters once against a black sibling, Case IV reduces to
Case V, Case II strictly climbs the path, and an exhausted path returns. -/
theorem C9_delete_fixup_terminates (fuel : Nat) (path : Path) (pc : Bool)
    (pl : RBNode) (pv : Int) (pk : Nat) (pr : RBNode) (ns : Option Bool)
    (df cs : Bool) (m n₀ : Nat)
    (hfuel : path.length + 4 ≤ fuel)
    (hns : ns = some df ∨ (ns = none ∧ (if df then pl else pr) = .nil))
    (hd : Bal (if df then pl else pr) false m)
    (hs : Bal (if df then pr else pl) cs (m+1))
    (hrb : pc = true → cs = false)
    (hp : PBal false n₀ path pc (if pc then m+1 else m+2)) :
    ∃ t', deleteRestoreTree fuel path (.node pc pl pv pk pr) ns = .ok t' := by
  obtain ⟨t', _, h, _⟩ := deleteRestoreTree_spec fuel path pc pl pv pk pr ns
    df cs m n₀ hfuel hns hd hs hrb hp
  exact ⟨t', h⟩

theorem C9_delete_fixup_terminates_witness :
    ∃ t', deleteRestoreTree 4 [] (.node false .nil 7 1
      (.node false .nil 9 1 .nil)) none = .ok t' :=
  C9_delete_fixup_terminates 4 [] false .nil 7 1 (.node false .nil 9 1 .nil)
    none true false 1 3 (by decide) (Or.inr ⟨rfl, rfl⟩) Bal.nil
    (Bal.black Bal.nil Bal.nil) (by simp) PBal.root

/-- C10: on every invariant-satisfying call with a live anchor parent, the
delete fix-up never dereferences a null pointer: the sibling picked on the
non-deficient side is a present node, and the inside nephew read in Case IV
is present (a red child exists on the sibling when that branch runs). -/
theorem C10_delete_fixup_no_null (fuel : Nat) (path : Path) (pc : Bool)
    (pl : RBNode) (pv : Int) (pk : Nat) (pr : RBNode) (ns : Option Bool)
    (df cs : Bool) (m n₀ : Nat)
    (hfuel : path.length + 4 ≤ fuel)
    (hns : ns = some df ∨ (ns = none ∧ (if df then pl else pr) = .nil))
    (hd : Bal (if df then pl else pr) false m)
    (hs : Bal (if df then pr else pl) cs (m+1))
    (hrb : pc = true → cs = false)
    (hp : PBal false n₀ path pc (if pc then m+1 else m+2)) :
    deleteRestoreTree fuel path (.node pc pl pv pk pr) ns ≠
      .error .nullDeref := by
  obtain ⟨t', _, h, _⟩ := deleteRestoreTree_spec fuel path pc pl pv pk pr ns
    df cs m n₀ hfuel hns hd hs hrb hp
  rw [h]
  simp

theorem C10_delete_fixup_no_null_witness :
    deleteRestoreTree 5 [] (.node false (.node false .nil 3 1 .nil) 7 1
      .nil) none ≠ .error .nullDeref :=
  C10_delete_fixup_no_null 5 [] false (.node false .nil 3 1 .nil) 7 1 .nil
    none false false 1 3 (by decide) (Or.inr ⟨rfl, rfl⟩) Bal.nil
    (Bal.black Bal.nil Bal.nil) (by simp) PBal.root

end RBT
